import Mathlib

/-!
Verification of the buteo S1 mosaicking core
(src/buteo/earth_observation/s1_mosaic.py).

Shallow embedding over exact rationals: the source's float32 arithmetic is
modelled by ℚ (element-wise claims are stated up to floating-point
tolerance, which an exact model settles).  Numpy arrays are modelled as
dimension records with total lookup functions; all index arithmetic is
carried out in ℤ, matching Python integer semantics (negative indices wrap,
slices clamp).  External collaborators that are not part of the repository
(numpy, the kernel generator, raster I/O) are modelled from their documented
behaviour where the spec pins it down; this is noted at each such
definition.
-/

/-! ### WeightedQuantileEstimator: hood_quantile (s1_mosaic.py lines 57-63)

The source:
  sort_mask = np.argsort(values); sorted_data = values[sort_mask];
  sorted_weights = weights[sort_mask]; cumsum = np.cumsum(sorted_weights);
  intersect = (cumsum - 0.5 * sorted_weights) / cumsum[-1];
  return np.interp(quant, intersect, sorted_data)
-/

/-- Modelled from the spec (§4.3) and numpy documentation: np.interp for an
ascending x-grid given as a list of (x, y) pairs.  Below the first grid
point it returns the first y, above the last grid point the last y, at a
grid point the y stored there, and between two grid points the linear
interpolation.  np.interp is an external numpy routine, not repository
code. -/
def interp (q : ℚ) : List (ℚ × ℚ) → ℚ
  | [] => 0
  | [(_, y)] => y
  | (x1, y1) :: (x2, y2) :: rest =>
      if q < x2 then
        if q ≤ x1 then y1 else y1 + (y2 - y1) * (q - x1) / (x2 - x1)
      else interp q ((x2, y2) :: rest)

/-- Comparison of value/weight pairs by the value component; used to model
np.argsort of the values with the weights carried along.  (np.argsort's
default sort is not stable; the model fixes the tie-break to original order,
which the spec (§9) flags as the open, implementation-defined choice.  The
claims proved below never depend on the tie-break.) -/
def pairLe (p q : ℚ × ℚ) : Prop := p.1 ≤ q.1

instance : DecidableRel pairLe := fun p q => inferInstanceAs (Decidable (p.1 ≤ q.1))

instance : IsTotal (ℚ × ℚ) pairLe := ⟨fun a b => le_total a.1 b.1⟩

instance : IsTrans (ℚ × ℚ) pairLe := ⟨fun _ _ _ h h₂ => le_trans h h₂⟩

/-- Modelled from numpy documentation: np.cumsum, the list of partial sums
(the i-th entry is the sum of the first i+1 elements). -/
def cumsum (l : List ℚ) : List ℚ := (List.range l.length).map (fun i => (l.take (i + 1)).sum)

/-- The weighted quantile estimator hood_quantile (s1_mosaic.py lines
57-63), translated statement by statement: sort the values carrying the
weights along, take partial weight sums, form the normalized positions
(cumsum - 0.5*w)/cumsum[-1] (for a non-empty list the last partial sum is
the total sum), and linearly interpolate the requested quantile. -/
def hood_quantile (values weights : List ℚ) (quant : ℚ) : ℚ :=
  let sorted := List.insertionSort pairLe (values.zip weights)
  let sorted_data := sorted.map Prod.fst
  let sorted_weights := sorted.map Prod.snd
  let cs := cumsum sorted_weights
  let total := sorted_weights.sum
  let intersect := List.zipWith (fun c w => (c - w / 2) / total) cs sorted_weights
  interp quant (intersect.zip sorted_data)

/-- The standard median, as the spec's §8 "standard median of values" and
also numpy's np.median: middle element of the sorted list for odd length,
mean of the two middle elements for even length. -/
def np_median (l : List ℚ) : ℚ :=
  let s := List.insertionSort (· ≤ ·) l
  let n := l.length
  if n % 2 = 1 then s.getD (n / 2) 0
  else (s.getD (n / 2 - 1) 0 + s.getD (n / 2) 0) / 2

/-! ### Monotonicity infrastructure for interp -/

/-- Relation between consecutive interpolation nodes: both the x and the y
component are non-decreasing. -/
def chainRel (p q : ℚ × ℚ) : Prop := p.1 ≤ q.1 ∧ p.2 ≤ q.2

/-- The interpolation grid of hood_quantile: normalized positions paired
with the sorted values.  Definitionally equal to the list hood_quantile
interpolates over (see hood_quantile_eq_interp). -/
def hoodPairs (values weights : List ℚ) : List (ℚ × ℚ) :=
  let sorted := List.insertionSort pairLe (values.zip weights)
  let sorted_data := sorted.map Prod.fst
  let sorted_weights := sorted.map Prod.snd
  let cs := cumsum sorted_weights
  let total := sorted_weights.sum
  (List.zipWith (fun c w => (c - w / 2) / total) cs sorted_weights).zip sorted_data

theorem hood_quantile_eq_interp (values weights : List ℚ) (q : ℚ) :
    hood_quantile values weights q = interp q (hoodPairs values weights) := rfl

theorem interp_ge_head : ∀ (t : List (ℚ × ℚ)) (p : ℚ × ℚ),
    List.Chain' chainRel (p :: t) → ∀ q : ℚ, p.2 ≤ interp q (p :: t) := by
  intro t
  induction t with
  | nil => intro p _ q; obtain ⟨x, y⟩ := p; simp [interp]
  | cons p2 t2 ih =>
    intro p h q
    obtain ⟨x1, y1⟩ := p
    obtain ⟨x2, y2⟩ := p2
    have hc : chainRel (x1, y1) (x2, y2) := (List.chain'_cons.mp h).1
    have ht : List.Chain' chainRel ((x2, y2) :: t2) := (List.chain'_cons.mp h).2
    simp only [interp]
    split_ifs with h1 h2
    · exact le_refl _
    · have hx : x1 < q := lt_of_not_le h2
      have hxx : x1 < x2 := lt_trans hx h1
      have hnn : (0:ℚ) ≤ (y2 - y1) * (q - x1) / (x2 - x1) :=
        div_nonneg (mul_nonneg (by linarith [hc.2]) (by linarith)) (by linarith)
      linarith
    · exact le_trans hc.2 (ih (x2, y2) ht q)

theorem interp_mono : ∀ (l : List (ℚ × ℚ)), List.Chain' chainRel l →
    ∀ q1 q2 : ℚ, q1 ≤ q2 → interp q1 l ≤ interp q2 l := by
  intro l
  induction l with
  | nil => intro _ q1 q2 _; simp [interp]
  | cons p t ih =>
    intro h q1 q2 h12
    cases t with
    | nil => obtain ⟨x, y⟩ := p; simp [interp]
    | cons p2 t2 =>
      obtain ⟨x1, y1⟩ := p
      obtain ⟨x2, y2⟩ := p2
      have hc : chainRel (x1, y1) (x2, y2) := (List.chain'_cons.mp h).1
      have ht : List.Chain' chainRel ((x2, y2) :: t2) := (List.chain'_cons.mp h).2
      by_cases hq1 : q1 < x2
      · by_cases hq1a : q1 ≤ x1
        · -- interp q1 gives the first node value
          have e1 : interp q1 ((x1, y1) :: (x2, y2) :: t2) = y1 := by
            simp only [interp]; rw [if_pos hq1, if_pos hq1a]
          rw [e1]
          exact interp_ge_head _ (x1, y1) h q2
        · have hx1 : x1 < q1 := lt_of_not_le hq1a
          have hxx : x1 < x2 := lt_trans hx1 hq1
          have e1 : interp q1 ((x1, y1) :: (x2, y2) :: t2) =
              y1 + (y2 - y1) * (q1 - x1) / (x2 - x1) := by
            simp only [interp]; rw [if_pos hq1, if_neg hq1a]
          by_cases hq2 : q2 < x2
          · have hq2a : ¬ q2 ≤ x1 := fun hle => hq1a (le_trans h12 hle)
            have e2 : interp q2 ((x1, y1) :: (x2, y2) :: t2) =
                y1 + (y2 - y1) * (q2 - x1) / (x2 - x1) := by
              simp only [interp]; rw [if_pos hq2, if_neg hq2a]
            rw [e1, e2]
            have hmul : (y2 - y1) * (q1 - x1) ≤ (y2 - y1) * (q2 - x1) :=
              mul_le_mul_of_nonneg_left (by linarith) (by linarith [hc.2])
            have hdiv : (y2 - y1) * (q1 - x1) / (x2 - x1) ≤
                (y2 - y1) * (q2 - x1) / (x2 - x1) :=
              div_le_div_of_nonneg_right hmul (by linarith) |>.trans (le_refl _)
            linarith
          · have e2 : interp q2 ((x1, y1) :: (x2, y2) :: t2) =
                interp q2 ((x2, y2) :: t2) := by
              simp only [interp]; rw [if_neg hq2]
            rw [e1, e2]
            have hy2 : y2 ≤ interp q2 ((x2, y2) :: t2) := interp_ge_head _ _ ht q2
            have htle : (q1 - x1) / (x2 - x1) ≤ 1 := by
              rw [div_le_one (by linarith)]; linarith
            have htnn : (0:ℚ) ≤ (q1 - x1) / (x2 - x1) :=
              div_nonneg (by linarith) (by linarith)
            have : (y2 - y1) * ((q1 - x1) / (x2 - x1)) ≤ (y2 - y1) * 1 :=
              mul_le_mul_of_nonneg_left htle (by linarith [hc.2])
            have hrw : (y2 - y1) * (q1 - x1) / (x2 - x1) =
                (y2 - y1) * ((q1 - x1) / (x2 - x1)) := by ring
            rw [hrw]
            linarith
      · have hq2 : ¬ q2 < x2 := fun hlt => hq1 (lt_of_le_of_lt h12 hlt)
        have e1 : interp q1 ((x1, y1) :: (x2, y2) :: t2) =
            interp q1 ((x2, y2) :: t2) := by
          simp only [interp]; rw [if_neg hq1]
        have e2 : interp q2 ((x1, y1) :: (x2, y2) :: t2) =
            interp q2 ((x2, y2) :: t2) := by
          simp only [interp]; rw [if_neg hq2]
        rw [e1, e2]
        exact ih ht q1 q2 h12

theorem cumsum_length (l : List ℚ) : (cumsum l).length = l.length := by
  simp [cumsum]

theorem cumsum_getElem (l : List ℚ) (i : ℕ) (h : i < (cumsum l).length) :
    (cumsum l)[i] = (l.take (i + 1)).sum := by
  simp [cumsum]

/-- The interpolation grid built from any value-sorted pair list with
non-negative weights of positive total sum is a chain: positions and values
are both non-decreasing. -/
theorem pairs_chain (sorted : List (ℚ × ℚ))
    (hsorted : List.Sorted pairLe sorted)
    (hwnn : ∀ p ∈ sorted, 0 ≤ p.2)
    (hT : 0 < (sorted.map Prod.snd).sum) :
    List.Chain' chainRel
      ((List.zipWith (fun c w => (c - w / 2) / (sorted.map Prod.snd).sum)
        (cumsum (sorted.map Prod.snd)) (sorted.map Prod.snd)).zip
        (sorted.map Prod.fst)) := by
  apply List.chain'_iff_get.mpr
  intro i hi
  have hlen_sw : (sorted.map Prod.snd).length = sorted.length := List.length_map _ _
  have hlen_sd : (sorted.map Prod.fst).length = sorted.length := List.length_map _ _
  have hlenZW : (List.zipWith (fun c w => (c - w / 2) / (sorted.map Prod.snd).sum)
      (cumsum (sorted.map Prod.snd)) (sorted.map Prod.snd)).length = sorted.length := by
    rw [List.length_zipWith, cumsum_length, hlen_sw, min_self]
  have hlenP : ((List.zipWith (fun c w => (c - w / 2) / (sorted.map Prod.snd).sum)
      (cumsum (sorted.map Prod.snd)) (sorted.map Prod.snd)).zip
      (sorted.map Prod.fst)).length = sorted.length := by
    rw [List.length_zip, hlenZW, hlen_sd, min_self]
  have hi1 : i + 1 < sorted.length := by omega
  have hi0 : i < sorted.length := by omega
  have hb0 : i < (sorted.map Prod.snd).length := by omega
  have hb1 : i + 1 < (sorted.map Prod.snd).length := by omega
  have h0i : 0 ≤ (sorted.map Prod.snd)[i] := by
    obtain ⟨p, hp, he⟩ := List.mem_map.mp (List.getElem_mem (l := sorted.map Prod.snd)
      (n := i) hb0)
    exact he ▸ hwnn p hp
  have h0i1 : 0 ≤ (sorted.map Prod.snd)[i + 1] := by
    obtain ⟨p, hp, he⟩ := List.mem_map.mp (List.getElem_mem (l := sorted.map Prod.snd)
      (n := i + 1) hb1)
    exact he ▸ hwnn p hp
  simp only [List.get_eq_getElem, List.getElem_zip, List.getElem_zipWith]
  constructor
  · -- positions are non-decreasing
    rw [cumsum_getElem _ i (by rw [cumsum_length]; omega),
        cumsum_getElem _ (i+1) (by rw [cumsum_length]; omega)]
    have hstep : ((sorted.map Prod.snd).take (i + 1 + 1)).sum =
        ((sorted.map Prod.snd).take (i + 1)).sum + (sorted.map Prod.snd)[i + 1] :=
      List.sum_take_succ _ (i + 1) hb1
    rw [hstep]
    apply div_le_div_of_nonneg_right ?_ hT.le |>.trans (le_refl _)
    linarith
  · -- values are non-decreasing
    have := hsorted.rel_get_of_lt (a := ⟨i, hi0⟩) (b := ⟨i + 1, hi1⟩) (by simp)
    simp only [List.get_eq_getElem] at this
    simp only [List.getElem_map]
    exact this

/-- The chain property instantiated for the grid hood_quantile builds. -/
theorem hoodPairs_chain (values weights : List ℚ)
    (hlen : values.length = weights.length)
    (hw : ∀ w ∈ weights, 0 ≤ w) (hsum : 0 < weights.sum) :
    List.Chain' chainRel (hoodPairs values weights) := by
  have hPe : hoodPairs values weights =
      (List.zipWith
        (fun c w => (c - w / 2) /
          ((List.insertionSort pairLe (values.zip weights)).map Prod.snd).sum)
        (cumsum ((List.insertionSort pairLe (values.zip weights)).map Prod.snd))
        ((List.insertionSort pairLe (values.zip weights)).map Prod.snd)).zip
        ((List.insertionSort pairLe (values.zip weights)).map Prod.fst) := rfl
  rw [hPe]
  have hperm := List.perm_insertionSort pairLe (values.zip weights)
  apply pairs_chain
  · exact List.sorted_insertionSort pairLe _
  · intro p hp
    have hpz : p ∈ values.zip weights := hperm.mem_iff.mp hp
    exact hw _ (List.of_mem_zip hpz).2
  · have h1 : List.Perm ((List.insertionSort pairLe (values.zip weights)).map Prod.snd)
        ((values.zip weights).map Prod.snd) := hperm.map Prod.snd
    rw [h1.sum_eq, List.map_snd_zip values weights (le_of_eq hlen.symm)]
    exact hsum

/-- C7: For every fixed non-empty value sequence and non-negative weights
with positive sum, hood_quantile is monotone in the requested quantile: for
all q1 ≤ q2 in the interval from 0 to 1,
hood_quantile values weights q1 ≤ hood_quantile values weights q2. -/
theorem hood_quantile_mono (values weights : List ℚ) (q1 q2 : ℚ)
    (hne : values ≠ []) (hlen : values.length = weights.length)
    (hw : ∀ w ∈ weights, 0 ≤ w) (hsum : 0 < weights.sum)
    (hq1 : 0 ≤ q1) (hq2 : q2 ≤ 1) (h12 : q1 ≤ q2) :
    hood_quantile values weights q1 ≤ hood_quantile values weights q2 := by
  rw [hood_quantile_eq_interp, hood_quantile_eq_interp]
  exact interp_mono _ (hoodPairs_chain values weights hlen hw hsum) q1 q2 h12

/-- Witness for C7 at a concrete input. -/
theorem hood_quantile_mono_witness :
    ([1, 2] : List ℚ) ≠ [] ∧ (0:ℚ) ≤ 1/4 ∧ (3/4 : ℚ) ≤ 1 ∧ (1/4 : ℚ) ≤ 3/4 ∧
    hood_quantile [1, 2] [1, 1] (1/4) ≤ hood_quantile [1, 2] [1, 1] (3/4) :=
  ⟨by simp, by norm_num, by norm_num, by norm_num,
    hood_quantile_mono [1, 2] [1, 1] (1/4) (3/4) (by simp) rfl
      (by intro w hw; fin_cases hw <;> norm_num) (by norm_num)
      (by norm_num) (by norm_num) (by norm_num)⟩

/-! ### C3: uniform weights give the standard median -/

theorem hoodPairs_def (values weights : List ℚ) :
    hoodPairs values weights =
      (List.zipWith (fun c w' => (c - w' / 2) /
          ((List.insertionSort pairLe (values.zip weights)).map Prod.snd).sum)
        (cumsum ((List.insertionSort pairLe (values.zip weights)).map Prod.snd))
        ((List.insertionSort pairLe (values.zip weights)).map Prod.snd)).zip
        ((List.insertionSort pairLe (values.zip weights)).map Prod.fst) := rfl

theorem map_fst_orderedInsert (p : ℚ × ℚ) (l : List (ℚ × ℚ)) :
    (List.orderedInsert pairLe p l).map Prod.fst =
      List.orderedInsert (· ≤ ·) p.1 (l.map Prod.fst) := by
  induction l with
  | nil => simp [List.orderedInsert]
  | cons b t ih =>
    by_cases h : pairLe p b
    · have h2 : p.1 ≤ b.1 := h
      rw [List.orderedInsert, if_pos h, List.map_cons, List.map_cons,
        List.orderedInsert, if_pos h2]
    · have h2 : ¬ p.1 ≤ b.1 := h
      rw [List.orderedInsert, if_neg h, List.map_cons, List.map_cons,
        List.orderedInsert, if_neg h2, ih]

theorem map_fst_insertionSort (l : List (ℚ × ℚ)) :
    (List.insertionSort pairLe l).map Prod.fst =
      List.insertionSort (· ≤ ·) (l.map Prod.fst) := by
  induction l with
  | nil => simp
  | cons b t ih =>
    simp only [List.insertionSort, List.map_cons]
    rw [map_fst_orderedInsert, ih]

theorem map_snd_sort_uniform (values : List ℚ) (w : ℚ) :
    (List.insertionSort pairLe (values.zip (List.replicate values.length w))).map Prod.snd
      = List.replicate values.length w := by
  have hperm := List.perm_insertionSort pairLe
    (values.zip (List.replicate values.length w))
  apply List.eq_replicate_iff.mpr
  constructor
  · rw [List.length_map, hperm.length_eq, List.length_zip, List.length_replicate, min_self]
  · intro b hb
    obtain ⟨p, hp, he⟩ := List.mem_map.mp hb
    have hmem := (List.of_mem_zip (hperm.mem_iff.mp hp)).2
    rw [← he]
    exact List.eq_of_mem_replicate hmem

/-- The interpolation grid of hood_quantile specialised to uniform weights:
the i-th node (counting from k) sits at position (2i+1)/(2n) and carries the
i-th sorted value. -/
def unifGrid (n : ℕ) : ℕ → List ℚ → List (ℚ × ℚ)
  | _, [] => []
  | k, v :: vs => ((2 * (k : ℚ) + 1) / (2 * (n : ℚ)), v) :: unifGrid n (k + 1) vs

theorem unifGrid_length (n : ℕ) : ∀ (k : ℕ) (s : List ℚ),
    (unifGrid n k s).length = s.length := by
  intro k s
  induction s generalizing k with
  | nil => rfl
  | cons v vs ih => simp [unifGrid, ih]

theorem unifGrid_getElem (n : ℕ) : ∀ (s : List ℚ) (k i : ℕ) (hi : i < s.length)
    (hg : i < (unifGrid n k s).length),
    (unifGrid n k s)[i] = ((2 * ((k : ℚ) + (i : ℚ)) + 1) / (2 * (n : ℚ)), s[i]) := by
  intro s
  induction s with
  | nil => intro k i hi hg; simp at hi
  | cons v vs ih =>
    intro k i hi hg
    cases i with
    | zero => simp [unifGrid]
    | succ j =>
      have hj : j < vs.length := by simpa using hi
      have hjg : j < (unifGrid n (k + 1) vs).length := by rw [unifGrid_length]; exact hj
      simp only [unifGrid, List.getElem_cons_succ]
      rw [ih (k + 1) j hj hjg]
      refine Prod.ext ?_ rfl
      push_cast
      ring

theorem interp_unifGrid_odd (m : ℕ) : ∀ (s : List ℚ) (k : ℕ),
    k + s.length = 2 * m + 1 → k ≤ m →
    interp (1/2) (unifGrid (2 * m + 1) k s) = s.getD (m - k) 0 := by
  intro s
  induction s with
  | nil => intro k hlen hk; simp at hlen; omega
  | cons v vs ih =>
    intro k hlen hk
    have hn : (0:ℚ) < 2 * ((2 * m + 1 : ℕ) : ℚ) := by positivity
    by_cases hkm : k = m
    · subst hkm
      have hhead : (2 * ((k : ℚ)) + 1) / (2 * ((2 * k + 1 : ℕ) : ℚ)) = 1/2 := by
        rw [div_eq_div_iff hn.ne' (by norm_num : (2:ℚ) ≠ 0)]
        push_cast
        ring
      cases vs with
      | nil => simp [unifGrid, interp]
      | cons v2 vs2 =>
        have hx2 : (1:ℚ)/2 < (2 * ((k + 1 : ℕ) : ℚ) + 1) / (2 * ((2 * k + 1 : ℕ) : ℚ)) := by
          rw [div_lt_div_iff (by norm_num) hn]
          push_cast
          linarith
        simp only [unifGrid, interp]
        rw [if_pos hx2, if_pos (le_of_eq hhead.symm)]
        simp
    · have hklt : k < m := lt_of_le_of_ne hk hkm
      cases vs with
      | nil => simp at hlen; omega
      | cons v2 vs2 =>
        have hx2 : ¬ ((1:ℚ)/2 < (2 * ((k + 1 : ℕ) : ℚ) + 1) / (2 * ((2 * m + 1 : ℕ) : ℚ))) := by
          rw [not_lt, div_le_div_iff hn (by norm_num)]
          push_cast
          have : (k : ℚ) + 1 ≤ (m : ℚ) := by exact_mod_cast hklt
          linarith
        simp only [unifGrid, interp]
        rw [if_neg hx2]
        have hrec := ih (k + 1) (by simp at hlen ⊢; omega) (by omega)
        simp only [unifGrid] at hrec
        rw [hrec]
        have hmk : m - k = (m - (k + 1)) + 1 := by omega
        rw [hmk, List.getD_cons_succ]

theorem interp_unifGrid_even (m : ℕ) (hm : 1 ≤ m) : ∀ (s : List ℚ) (k : ℕ),
    k + s.length = 2 * m → k ≤ m - 1 →
    interp (1/2) (unifGrid (2 * m) k s) = (s.getD (m - 1 - k) 0 + s.getD (m - k) 0) / 2 := by
  intro s
  induction s with
  | nil => intro k hlen hk; simp at hlen; omega
  | cons v vs ih =>
    intro k hlen hk
    have hn : (0:ℚ) < 2 * ((2 * m : ℕ) : ℚ) := by
      have : (0:ℚ) < ((2 * m : ℕ) : ℚ) := by exact_mod_cast Nat.mul_pos (by norm_num) hm
      linarith
    by_cases hkm : k = m - 1
    · cases vs with
      | nil => simp at hlen; omega
      | cons v2 vs2 =>
        have hkq : (k : ℚ) = (m : ℚ) - 1 := by
          have : ((m - 1 : ℕ) : ℚ) = (m : ℚ) - 1 := by
            push_cast [Nat.cast_sub hm]
            ring
          rw [hkm, this]
        have hx2 : (1:ℚ)/2 < (2 * ((k + 1 : ℕ) : ℚ) + 1) / (2 * ((2 * m : ℕ) : ℚ)) := by
          rw [div_lt_div_iff (by norm_num) hn]
          push_cast [hkq]
          linarith
        have hx1 : ¬ ((1:ℚ)/2 ≤ (2 * (k : ℚ) + 1) / (2 * ((2 * m : ℕ) : ℚ))) := by
          rw [not_le, div_lt_div_iff hn (by norm_num)]
          rw [hkq]
          push_cast
          have : (1:ℚ) ≤ (m:ℚ) := by exact_mod_cast hm
          linarith
        simp only [unifGrid, interp]
        rw [if_pos hx2, if_neg hx1]
        have hmk1 : m - 1 - k = 0 := by omega
        have hmk2 : m - k = 1 := by omega
        rw [hmk1, hmk2]
        simp only [List.getD_cons_zero, List.getD_cons_succ]
        have hMq : (0:ℚ) < (m:ℚ) := by exact_mod_cast hm
        field_simp
        linear_combination (2 * v - 2 * v2) * hkq
    · have hklt : k < m - 1 := lt_of_le_of_ne hk hkm
      cases vs with
      | nil => simp at hlen; omega
      | cons v2 vs2 =>
        have hx2 : ¬ ((1:ℚ)/2 < (2 * ((k + 1 : ℕ) : ℚ) + 1) / (2 * ((2 * m : ℕ) : ℚ))) := by
          rw [not_lt, div_le_div_iff hn (by norm_num)]
          push_cast
          have : (k : ℚ) + 2 ≤ (m : ℚ) := by
            have : k + 2 ≤ m := by omega
            exact_mod_cast this
          linarith
        simp only [unifGrid, interp]
        rw [if_neg hx2]
        have hrec := ih (k + 1) (by simp at hlen ⊢; omega) (by omega)
        simp only [unifGrid] at hrec
        rw [hrec]
        have hmk1 : m - 1 - k = (m - 1 - (k + 1)) + 1 := by omega
        have hmk2 : m - k = (m - (k + 1)) + 1 := by omega
        rw [hmk1, hmk2, List.getD_cons_succ, List.getD_cons_succ]

theorem hoodPairs_uniform (values : List ℚ) (w : ℚ) (hw : w ≠ 0) (hne : values ≠ []) :
    hoodPairs values (List.replicate values.length w) =
      unifGrid values.length 0 (List.insertionSort (· ≤ ·) values) := by
  have hn : values.length ≠ 0 := (List.length_pos.mpr hne).ne'
  have hnQ : ((values.length : ℕ) : ℚ) ≠ 0 := Nat.cast_ne_zero.mpr hn
  rw [hoodPairs_def, map_snd_sort_uniform, map_fst_insertionSort,
    List.map_fst_zip values (List.replicate values.length w)
      (by rw [List.length_replicate])]
  apply List.ext_getElem
  · rw [List.length_zip, List.length_zipWith, cumsum_length, List.length_replicate,
      min_self, unifGrid_length, List.length_insertionSort, min_self]
  · intro i h1 h2
    have hilen : i < values.length := by
      rw [List.length_zip, List.length_zipWith, cumsum_length, List.length_replicate,
        min_self, List.length_insertionSort, min_self] at h1
      exact h1
    have hisort : i < (List.insertionSort (· ≤ ·) values).length := by
      rw [List.length_insertionSort]; exact hilen
    rw [List.getElem_zip, List.getElem_zipWith,
      unifGrid_getElem values.length (List.insertionSort (· ≤ ·) values) 0 i hisort
        (by rw [unifGrid_length]; exact hisort)]
    refine Prod.ext ?_ rfl
    dsimp only
    rw [cumsum_getElem _ i (by rw [cumsum_length, List.length_replicate]; exact hilen),
      List.getElem_replicate, List.take_replicate]
    have hmin : (i + 1) ⊓ values.length = i + 1 := by omega
    rw [hmin]
    simp only [List.sum_replicate, nsmul_eq_mul]
    rw [div_eq_div_iff (mul_ne_zero hnQ hw)
      (mul_ne_zero (by norm_num : (2:ℚ) ≠ 0) hnQ)]
    push_cast
    ring

/-- C3: For every non-empty sequence of values with uniform positive
weights, hood_quantile at quantile 0.5 equals the standard median of the
values: the middle element for odd length, the mean of the two middle
elements for even length. -/
theorem hood_quantile_uniform_median (values : List ℚ) (w : ℚ)
    (hne : values ≠ []) (hw : 0 < w) :
    hood_quantile values (List.replicate values.length w) (1/2) = np_median values := by
  have hlenpos : 0 < values.length := List.length_pos.mpr hne
  have hsortlen : (List.insertionSort (· ≤ ·) values).length = values.length :=
    List.length_insertionSort _ _
  rw [hood_quantile_eq_interp, hoodPairs_uniform values w hw.ne' hne]
  rcases Nat.even_or_odd values.length with he | ho
  · obtain ⟨m, hm2⟩ := he
    have hm1 : 1 ≤ m := by omega
    have heven := interp_unifGrid_even m hm1 (List.insertionSort (· ≤ ·) values) 0
      (by rw [hsortlen]; omega) (by omega)
    rw [show values.length = 2 * m by omega, heven]
    simp only [np_median]
    rw [if_neg (by omega : ¬ values.length % 2 = 1)]
    rw [show m - 1 - 0 = values.length / 2 - 1 by omega,
      show m - 0 = values.length / 2 by omega]
  · obtain ⟨m, hm2⟩ := ho
    have hodd := interp_unifGrid_odd m (List.insertionSort (· ≤ ·) values) 0
      (by rw [hsortlen]; omega) (by omega)
    rw [show values.length = 2 * m + 1 by omega, hodd]
    simp only [np_median]
    rw [if_pos (by omega : values.length % 2 = 1)]
    rw [show m - 0 = values.length / 2 by omega]

/-- Witness for C3 at a concrete input: median of [3, 1, 2] is 2. -/
theorem hood_quantile_uniform_median_witness :
    ([3, 1, 2] : List ℚ) ≠ [] ∧ (0:ℚ) < 1 ∧
    hood_quantile [3, 1, 2] (List.replicate 3 1) (1/2) = np_median [3, 1, 2] ∧
    np_median ([3, 1, 2] : List ℚ) = 2 :=
  ⟨by simp, by norm_num,
    hood_quantile_uniform_median [3, 1, 2] 1 (by simp) (by norm_num),
    by norm_num [np_median, List.insertionSort, List.orderedInsert]⟩

/-! ### Data model: numpy arrays (§3 RasterStack / FeatherStack / MosaicOutput) -/

/-- A 3-D float stack with axes (row, col, time): dimensions plus a total
lookup function.  Lookups take ℤ indices so that Python/numpy index
arithmetic (which goes negative before clamping or wrapping) is modelled
exactly; the stencil only reads indices that are in range after clamping
and wrapping. -/
structure Arr3 where
  rows : ℕ
  cols : ℕ
  depth : ℕ
  data : ℤ → ℤ → ℤ → ℚ

/-- A 2-D float array (rows, cols), the stencil output. -/
structure Arr2 where
  rows : ℕ
  cols : ℕ
  data : ℕ → ℕ → ℚ

/-- Python floor division by 2 applied to depth - 1, the source's
z_adj = (arr.shape[2] - 1) // 2 (Int.fdiv is Python's floor division). -/
def zAdjOf (depth : ℕ) : ℤ := ((depth : ℤ) - 1).fdiv 2

/-- numpy index semantics on the temporal axis: a negative index counts
from the end of the axis.  The stencil produces z indices in
[-z_adj, z_adj], so after the wrap the index is in range whenever the depth
is positive. -/
def zWrap (depth : ℕ) (z : ℤ) : ℤ := if z < 0 then (depth : ℤ) + z else z

/-- Sequential two-sided clamp, as the source's
if v < lo: v = lo elif v > hi: v = hi. -/
def clampI (v lo hi : ℤ) : ℤ := if v < lo then lo else if hi < v then hi else v

/-- The exclusion test of s1_collapse (lines 99-120): a kernel candidate at
output pixel (x, y) is outside when its temporal offset leaves
[-z_adj, z_adj] or its spatial coordinates leave [0, x_adj] × [0, y_adj]. -/
def candOutside (arr : Arr3) (off : ℤ × ℤ × ℤ) (x y : ℕ) : Prop :=
  (off.2.2 < -(zAdjOf arr.depth) ∨ zAdjOf arr.depth < off.2.2) ∨
  ((x : ℤ) + off.1 < 0 ∨ (arr.rows : ℤ) - 1 < (x : ℤ) + off.1) ∨
  ((y : ℤ) + off.2.1 < 0 ∨ (arr.cols : ℤ) - 1 < (y : ℤ) + off.2.1)

instance (arr : Arr3) (off : ℤ × ℤ × ℤ) (x y : ℕ) : Decidable (candOutside arr off x y) :=
  inferInstanceAs (Decidable (_ ∨ _ ∨ _))

/-- The stack value a candidate is compared against nodata (line 122): read
at the clamped coordinates, with numpy negative-index wrap on z. -/
def candValue (arr : Arr3) (off : ℤ × ℤ × ℤ) (x y : ℕ) : ℚ :=
  arr.data (clampI ((x : ℤ) + off.1) 0 ((arr.rows : ℤ) - 1))
    (clampI ((y : ℤ) + off.2.1) 0 ((arr.cols : ℤ) - 1))
    (zWrap arr.depth (clampI off.2.2 (-(zAdjOf arr.depth)) (zAdjOf arr.depth)))

/-- The feather weight read for a surviving candidate (line 128), at the
same clamped coordinates. -/
def candFeather (arr feather : Arr3) (off : ℤ × ℤ × ℤ) (x y : ℕ) : ℚ :=
  feather.data (clampI ((x : ℤ) + off.1) 0 ((arr.rows : ℤ) - 1))
    (clampI ((y : ℤ) + off.2.1) 0 ((arr.cols : ℤ) - 1))
    (zWrap arr.depth (clampI off.2.2 (-(zAdjOf arr.depth)) (zAdjOf arr.depth)))

/-- State accumulated over the kernel candidates of one output pixel: the
hood_values and hood_weights arrays (length = hood size, entries of skipped
candidates keep the 0 of the np.zeros initialisation) and the running
weight_sum. -/
structure PixState where
  vals : List ℚ
  ws : List ℚ
  wsum : ℚ

/-- One iteration of the candidate loop (lines 94-131) at output pixel
(x, y): candidate n with offset off and kernel weight wk is skipped when it
is outside or (with the nodata flag) reads the nodata value; otherwise its
value and its kernel-times-feather weight are stored at slot n and the
weight accumulates. -/
def collapseStep (arr feather : Arr3) (nodata : Bool) (nodata_value : ℚ)
    (x y : ℕ) (st : PixState) (cand : ℕ × ((ℤ × ℤ × ℤ) × ℚ)) : PixState :=
  let n := cand.1
  let off := cand.2.1
  let wk := cand.2.2
  if candOutside arr off x y ∨ (nodata = true ∧ candValue arr off x y = nodata_value) then st
  else
    { vals := st.vals.set n (candValue arr off x y)
      ws := st.ws.set n (wk * candFeather arr feather off x y)
      wsum := st.wsum + wk * candFeather arr feather off x y }

/-- The candidate loop of s1_collapse for one output pixel, folded over the
numbered offset/weight table, starting from zeroed hood arrays and zero
weight_sum. -/
def pixGather (arr feather : Arr3) (offsets : List (ℤ × ℤ × ℤ)) (weights : List ℚ)
    (nodata : Bool) (nodata_value : ℚ) (x y : ℕ) : PixState :=
  ((offsets.zip weights).enum).foldl (collapseStep arr feather nodata nodata_value x y)
    ⟨List.replicate offsets.length 0, List.replicate offsets.length 0, 0⟩

/-- The value written to result[x, y] when weight_sum > 0 (lines 133-139):
normalize the hood weights by weight_sum, then either the weighted hood
quantile or (weighted=False) the numpy median of the values whose
normalized weight is non-zero. -/
def hoodResult (arr feather : Arr3) (offsets : List (ℤ × ℤ × ℤ)) (weights : List ℚ)
    (quantile : ℚ) (nodata : Bool) (nodata_value : ℚ) (weighted : Bool) (x y : ℕ) : ℚ :=
  let st := pixGather arr feather offsets weights nodata nodata_value x y
  let hood_weights := st.ws.map (fun v => v / st.wsum)
  if weighted then hood_quantile st.vals hood_weights quantile
  else np_median (((st.vals.zip hood_weights).filter (fun p => decide (p.2 ≠ 0))).map Prod.fst)

/-- The complete per-pixel result: the written value when weight_sum > 0,
otherwise the initialisation (nodata_value with the nodata flag, else 0). -/
def collapsePixel (arr feather : Arr3) (offsets : List (ℤ × ℤ × ℤ)) (weights : List ℚ)
    (quantile : ℚ) (nodata : Bool) (nodata_value : ℚ) (weighted : Bool) (x y : ℕ) : ℚ :=
  if (pixGather arr feather offsets weights nodata nodata_value x y).wsum > 0 then
    hoodResult arr feather offsets weights quantile nodata nodata_value weighted x y
  else if nodata then nodata_value else 0

/-- Row-major enumeration of the output pixels, as the source's
for x in prange(shape[0]): for y in range(shape[1]). -/
def pixelList (rows cols : ℕ) : List (ℕ × ℕ) :=
  (List.range rows).flatMap (fun x => (List.range cols).map (fun y => (x, y)))

/-- NeighborhoodCollapseStencil: s1_collapse (lines 67-141).  The result
array starts as np.full(nodata_value) (nodata=True) or np.zeros
(nodata=False); each pixel in the loop order is written only when its
weight_sum is positive.  The writes are modelled as successive updates of
the lookup function, mirroring result[x, y] = ... . -/
def s1_collapse (arr : Arr3) (offsets : List (ℤ × ℤ × ℤ)) (weights : List ℚ)
    (feather_weights : Arr3) (quantile : ℚ) (nodata : Bool) (nodata_value : ℚ)
    (weighted : Bool) : Arr2 :=
  let init : ℕ → ℕ → ℚ := fun _ _ => if nodata then nodata_value else 0
  { rows := arr.rows
    cols := arr.cols
    data := (pixelList arr.rows arr.cols).foldl (fun r p =>
      if (pixGather arr feather_weights offsets weights nodata nodata_value p.1 p.2).wsum > 0 then
        fun x' y' => if x' = p.1 ∧ y' = p.2 then
          hoodResult arr feather_weights offsets weights quantile nodata nodata_value weighted p.1 p.2
        else r x' y'
      else r) init }

/-! ### Per-pixel characterisation of the stencil loop -/

theorem foldl_write_char (cond : ℕ × ℕ → Prop) [DecidablePred cond] (val : ℕ × ℕ → ℚ) :
    ∀ (l : List (ℕ × ℕ)) (res : ℕ → ℕ → ℚ) (x y : ℕ),
      (l.foldl (fun r p => if cond p then
          (fun x' y' => if x' = p.1 ∧ y' = p.2 then val p else r x' y') else r) res) x y
        = if (x, y) ∈ l ∧ cond (x, y) then val (x, y) else res x y := by
  intro l
  induction l with
  | nil => intro res x y; simp
  | cons a t ih =>
    intro res x y
    obtain ⟨a1, a2⟩ := a
    rw [List.foldl_cons, ih]
    by_cases hmem : (x, y) ∈ t ∧ cond (x, y)
    · rw [if_pos hmem, if_pos ⟨List.mem_cons_of_mem _ hmem.1, hmem.2⟩]
    · rw [if_neg hmem]
      by_cases hca : cond (a1, a2)
      · rw [if_pos hca]
        dsimp only
        by_cases hxy : x = a1 ∧ y = a2
        · obtain ⟨hx, hy⟩ := hxy
          rw [if_pos ⟨hx, hy⟩,
            if_pos ⟨by rw [hx, hy]; exact List.mem_cons_self _ _,
              by rw [hx, hy]; exact hca⟩,
            hx, hy]
        · rw [if_neg hxy]
          have hno : ¬ ((x, y) ∈ (a1, a2) :: t ∧ cond (x, y)) := by
            rintro ⟨hm, hcxy⟩
            rcases List.mem_cons.mp hm with heq | hmt
            · exact hxy ⟨congrArg Prod.fst heq, congrArg Prod.snd heq⟩
            · exact hmem ⟨hmt, hcxy⟩
          rw [if_neg hno]
      · rw [if_neg hca]
        have hno : ¬ ((x, y) ∈ (a1, a2) :: t ∧ cond (x, y)) := by
          rintro ⟨hm, hcxy⟩
          rcases List.mem_cons.mp hm with heq | hmt
          · rw [heq] at hcxy; exact hca hcxy
          · exact hmem ⟨hmt, hcxy⟩
        rw [if_neg hno]

theorem mem_pixelList (rows cols x y : ℕ) :
    (x, y) ∈ pixelList rows cols ↔ x < rows ∧ y < cols := by
  simp only [pixelList, List.mem_flatMap, List.mem_map, List.mem_range, Prod.mk.injEq]
  constructor
  · rintro ⟨a, ha, b, hb, h1, h2⟩
    exact ⟨h1 ▸ ha, h2 ▸ hb⟩
  · rintro ⟨h1, h2⟩
    exact ⟨x, h1, y, h2, rfl, rfl⟩

/-- The output of s1_collapse at an in-range pixel is exactly the per-pixel
function collapsePixel: no pixel's result depends on any other pixel's
computation. -/
theorem s1_collapse_data_eq (arr feather : Arr3) (offsets : List (ℤ × ℤ × ℤ))
    (weights : List ℚ) (quantile : ℚ) (nodata : Bool) (nodata_value : ℚ)
    (weighted : Bool) (x y : ℕ) (hx : x < arr.rows) (hy : y < arr.cols) :
    (s1_collapse arr offsets weights feather quantile nodata nodata_value weighted).data x y =
      collapsePixel arr feather offsets weights quantile nodata nodata_value weighted x y := by
  have h := foldl_write_char
    (fun p => (pixGather arr feather offsets weights nodata nodata_value p.1 p.2).wsum > 0)
    (fun p => hoodResult arr feather offsets weights quantile nodata nodata_value weighted p.1 p.2)
    (pixelList arr.rows arr.cols) (fun _ _ => if nodata then nodata_value else 0) x y
  have hmem : (x, y) ∈ pixelList arr.rows arr.cols := (mem_pixelList _ _ _ _).mpr ⟨hx, hy⟩
  refine Eq.trans h ?_
  by_cases hc : (pixGather arr feather offsets weights nodata nodata_value x y).wsum > 0
  · rw [if_pos ⟨hmem, hc⟩, collapsePixel, if_pos hc]
  · rw [if_neg (fun hh => hc hh.2), collapsePixel, if_neg hc]

/-- Out-of-range positions of the output lookup keep the initialisation
value (they are never written by the loop). -/
theorem s1_collapse_data_out (arr feather : Arr3) (offsets : List (ℤ × ℤ × ℤ))
    (weights : List ℚ) (quantile : ℚ) (nodata : Bool) (nodata_value : ℚ)
    (weighted : Bool) (x y : ℕ) (h : ¬ (x < arr.rows ∧ y < arr.cols)) :
    (s1_collapse arr offsets weights feather quantile nodata nodata_value weighted).data x y =
      (if nodata then nodata_value else 0) := by
  have hh := foldl_write_char
    (fun p => (pixGather arr feather offsets weights nodata nodata_value p.1 p.2).wsum > 0)
    (fun p => hoodResult arr feather offsets weights quantile nodata nodata_value weighted p.1 p.2)
    (pixelList arr.rows arr.cols) (fun _ _ => if nodata then nodata_value else 0) x y
  refine Eq.trans hh ?_
  rw [if_neg (fun hc => h ((mem_pixelList _ _ _ _).mp hc.1))]

/-- Folding the candidate step over candidates that all skip leaves the
state untouched. -/
theorem foldl_skip_all (arr feather : Arr3) (nodata_value : ℚ) (x y : ℕ) :
    ∀ (l : List (ℕ × ((ℤ × ℤ × ℤ) × ℚ))) (st : PixState),
      (∀ c ∈ l, candOutside arr c.2.1 x y ∨ candValue arr c.2.1 x y = nodata_value) →
      l.foldl (collapseStep arr feather true nodata_value x y) st = st := by
  intro l
  induction l with
  | nil => intro st _; rfl
  | cons c t ih =>
    intro st hall
    rw [List.foldl_cons]
    have hskip : collapseStep arr feather true nodata_value x y st c = st := by
      show (if candOutside arr c.2.1 x y ∨
          (true = true ∧ candValue arr c.2.1 x y = nodata_value) then st else _) = st
      rcases hall c (List.mem_cons_self _ _) with h1 | h2
      · rw [if_pos (Or.inl h1)]
      · rw [if_pos (Or.inr ⟨rfl, h2⟩)]
    rw [hskip]
    exact ih st (fun c2 hc2 => hall c2 (List.mem_cons_of_mem _ hc2))

/-- If every kernel candidate at (x, y) skips (outside or nodata-valued),
the candidate fold leaves the zeroed initial state untouched. -/
theorem pixGather_all_skip (arr feather : Arr3) (offsets : List (ℤ × ℤ × ℤ))
    (weights : List ℚ) (nodata_value : ℚ) (x y : ℕ)
    (h : ∀ off ∈ offsets, candOutside arr off x y ∨ candValue arr off x y = nodata_value) :
    pixGather arr feather offsets weights true nodata_value x y =
      ⟨List.replicate offsets.length 0, List.replicate offsets.length 0, 0⟩ := by
  have hall : ∀ c ∈ (offsets.zip weights).enum,
      candOutside arr c.2.1 x y ∨ candValue arr c.2.1 x y = nodata_value := by
    rintro ⟨n, off, wk⟩ hc
    obtain ⟨hn, he⟩ := List.mem_enum hc
    have hn2 : n < offsets.length := by
      rw [List.length_zip] at hn; omega
    have h1 : off = offsets[n] := by
      have h2 := congrArg Prod.fst he
      rw [List.getElem_zip] at h2
      exact h2
    rw [h1]
    exact h _ (List.getElem_mem _)
  exact foldl_skip_all arr feather nodata_value x y _ _ hall

/-! ### Claims about s1_collapse -/

/-- C2: In s1_collapse every kernel candidate whose x, y or temporal
coordinate falls out of range is dropped entirely and contributes neither
value nor weight; consequently, whenever every candidate at a pixel is
out-of-range or reads the nodata sentinel (so only clamped-but-valid
neighbours would remain), the output at that pixel is the nodata
sentinel. -/
theorem s1_collapse_boundary_exclusion (arr feather : Arr3)
    (offsets : List (ℤ × ℤ × ℤ)) (weights : List ℚ) (quantile nodata_value : ℚ)
    (weighted : Bool) (x y : ℕ) (hx : x < arr.rows) (hy : y < arr.cols)
    (h : ∀ off ∈ offsets, candOutside arr off x y ∨ candValue arr off x y = nodata_value) :
    (s1_collapse arr offsets weights feather quantile true nodata_value weighted).data x y
      = nodata_value := by
  rw [s1_collapse_data_eq arr feather offsets weights quantile true nodata_value weighted
    x y hx hy, collapsePixel, pixGather_all_skip arr feather offsets weights nodata_value x y h,
    if_neg (by exact lt_irrefl 0), if_pos rfl]

/-- Witness for C2: at the corner pixel of an all-5 stack, a kernel whose
only offset points out of the grid leaves the pixel at the nodata sentinel,
even though the clamped coordinate would read a valid value. -/
theorem s1_collapse_boundary_exclusion_witness :
    (∀ off ∈ ([(-1, 0, 0)] : List (ℤ × ℤ × ℤ)),
      candOutside (Arr3.mk 1 1 1 (fun _ _ _ => 5)) off 0 0 ∨
      candValue (Arr3.mk 1 1 1 (fun _ _ _ => 5)) off 0 0 = -9999) ∧
    (s1_collapse (Arr3.mk 1 1 1 (fun _ _ _ => 5)) [(-1, 0, 0)] [1]
      (Arr3.mk 1 1 1 (fun _ _ _ => 1)) (1/2) true (-9999) true).data 0 0 = -9999 := by
  constructor
  · intro off hoff
    have : off = (-1, 0, 0) := by simpa using hoff
    subst this
    left
    norm_num [candOutside, zAdjOf]
  · exact s1_collapse_boundary_exclusion _ _ _ _ _ _ _ 0 0 (by norm_num) (by norm_num)
      (by
        intro off hoff
        have : off = (-1, 0, 0) := by simpa using hoff
        subst this
        left
        norm_num [candOutside, zAdjOf])

/-- C4: With the nodata flag set, a pixel whose accumulated weight_sum is 0
(every candidate excluded) gets the nodata sentinel in the output. -/
theorem s1_collapse_zero_weight_nodata (arr feather : Arr3)
    (offsets : List (ℤ × ℤ × ℤ)) (weights : List ℚ) (quantile nodata_value : ℚ)
    (weighted : Bool) (x y : ℕ) (hx : x < arr.rows) (hy : y < arr.cols)
    (hsum : (pixGather arr feather offsets weights true nodata_value x y).wsum = 0) :
    (s1_collapse arr offsets weights feather quantile true nodata_value weighted).data x y
      = nodata_value := by
  rw [s1_collapse_data_eq arr feather offsets weights quantile true nodata_value weighted
    x y hx hy, collapsePixel, if_neg (by rw [hsum]; exact lt_irrefl 0), if_pos rfl]

/-- Witness for C4: the all-nodata 1 by 1 by 1 stack with the identity
offset accumulates no weight and yields the sentinel. -/
theorem s1_collapse_zero_weight_nodata_witness :
    (pixGather (Arr3.mk 1 1 1 (fun _ _ _ => -9999)) (Arr3.mk 1 1 1 (fun _ _ _ => 1))
      [(0, 0, 0)] [1] true (-9999) 0 0).wsum = 0 ∧
    (s1_collapse (Arr3.mk 1 1 1 (fun _ _ _ => -9999)) [(0, 0, 0)] [1]
      (Arr3.mk 1 1 1 (fun _ _ _ => 1)) (1/2) true (-9999) true).data 0 0 = -9999 := by
  have hsum : (pixGather (Arr3.mk 1 1 1 (fun _ _ _ => -9999))
      (Arr3.mk 1 1 1 (fun _ _ _ => 1)) [(0, 0, 0)] [1] true (-9999) 0 0).wsum = 0 := by
    norm_num [pixGather, collapseStep, candOutside, candValue, clampI, zWrap, zAdjOf]
  exact ⟨hsum, s1_collapse_zero_weight_nodata _ _ _ _ _ _ _ 0 0
    (by norm_num) (by norm_num) hsum⟩

/-- C10: With the nodata flag false the result array is initialised to
zeros, so a pixel whose whole neighbourhood is excluded (weight_sum 0)
yields 0.0 rather than the nodata sentinel. -/
theorem s1_collapse_zero_weight_zero (arr feather : Arr3)
    (offsets : List (ℤ × ℤ × ℤ)) (weights : List ℚ) (quantile nodata_value : ℚ)
    (weighted : Bool) (x y : ℕ) (hx : x < arr.rows) (hy : y < arr.cols)
    (hsum : (pixGather arr feather offsets weights false nodata_value x y).wsum = 0) :
    (s1_collapse arr offsets weights feather quantile false nodata_value weighted).data x y
      = 0 := by
  rw [s1_collapse_data_eq arr feather offsets weights quantile false nodata_value weighted
    x y hx hy, collapsePixel, if_neg (by rw [hsum]; exact lt_irrefl 0),
    if_neg (by exact Bool.false_ne_true)]

/-- Witness for C10: with nodata=False and a single fully out-of-range
offset the pixel stays 0 (the nodata sentinel is -9999, not 0). -/
theorem s1_collapse_zero_weight_zero_witness :
    (pixGather (Arr3.mk 1 1 1 (fun _ _ _ => 5)) (Arr3.mk 1 1 1 (fun _ _ _ => 1))
      [(-1, 0, 0)] [1] false (-9999) 0 0).wsum = 0 ∧
    (s1_collapse (Arr3.mk 1 1 1 (fun _ _ _ => 5)) [(-1, 0, 0)] [1]
      (Arr3.mk 1 1 1 (fun _ _ _ => 1)) (1/2) false (-9999) true).data 0 0 = 0 := by
  have hsum : (pixGather (Arr3.mk 1 1 1 (fun _ _ _ => 5))
      (Arr3.mk 1 1 1 (fun _ _ _ => 1)) [(-1, 0, 0)] [1] false (-9999) 0 0).wsum = 0 := by
    norm_num [pixGather, collapseStep, candOutside, candValue, clampI, zWrap, zAdjOf]
  exact ⟨hsum, s1_collapse_zero_weight_zero _ _ _ _ _ _ _ 0 0
    (by norm_num) (by norm_num) hsum⟩

/-- C8: s1_collapse is a pure function of its inputs (the embedding takes
the stack, kernel table and feather stack as read-only values and returns a
fresh output; nothing else is written), its output has the stack's spatial
shape, and the value at each in-range position (x, y) equals the per-pixel
function collapsePixel of the inputs at (x, y) alone — no cross-pixel
state. -/
theorem s1_collapse_frame (arr feather : Arr3) (offsets : List (ℤ × ℤ × ℤ))
    (weights : List ℚ) (quantile : ℚ) (nodata : Bool) (nodata_value : ℚ)
    (weighted : Bool) :
    (s1_collapse arr offsets weights feather quantile nodata nodata_value weighted).rows
      = arr.rows ∧
    (s1_collapse arr offsets weights feather quantile nodata nodata_value weighted).cols
      = arr.cols ∧
    (∀ x y, x < arr.rows → y < arr.cols →
      (s1_collapse arr offsets weights feather quantile nodata nodata_value weighted).data x y
        = collapsePixel arr feather offsets weights quantile nodata nodata_value weighted x y) :=
  ⟨rfl, rfl, fun x y hx hy =>
    s1_collapse_data_eq arr feather offsets weights quantile nodata nodata_value weighted
      x y hx hy⟩

/-- Witness for C8 at a concrete stack and pixel. -/
theorem s1_collapse_frame_witness :
    (s1_collapse (Arr3.mk 1 1 1 (fun _ _ _ => 5)) [(0, 0, 0)] [1]
      (Arr3.mk 1 1 1 (fun _ _ _ => 1)) (1/2) true (-9999) true).data 0 0 =
      collapsePixel (Arr3.mk 1 1 1 (fun _ _ _ => 5)) (Arr3.mk 1 1 1 (fun _ _ _ => 1))
        [(0, 0, 0)] [1] (1/2) true (-9999) true 0 0 :=
  (s1_collapse_frame (Arr3.mk 1 1 1 (fun _ _ _ => 5)) (Arr3.mk 1 1 1 (fun _ _ _ => 1))
    [(0, 0, 0)] [1] (1/2) true (-9999) true).2.2 0 0 (by norm_num) (by norm_num)

/-! ### ChunkedMosaicDriver: process_aligned (s1_mosaic.py lines 144-288) -/

/-- Modelled from numpy documentation: Python slice semantics arr[s:e] on
the row axis of a 3-D stack.  A negative bound counts from the end of the
axis; bounds clamp into [0, rows]. -/
def pySlice3 (a : Arr3) (s e : ℤ) : Arr3 :=
  let n : ℤ := a.rows
  let s2 := if s < 0 then max 0 (n + s) else min s n
  let e2 := if e < 0 then max 0 (n + e) else min e n
  { rows := (e2 - s2).toNat
    cols := a.cols
    depth := a.depth
    data := fun x y z => a.data (s2 + x) y z }

/-- Python slice semantics on the row axis of a 2-D array (used for the
halo trim arr_collapsed[offset_start:offset_end]). -/
def pySlice2 (a : Arr2) (s e : ℤ) : Arr2 :=
  let n : ℤ := a.rows
  let s2 := if s < 0 then max 0 (n + s) else min s n
  let e2 := if e < 0 then max 0 (n + e) else min e n
  { rows := (e2 - s2).toNat
    cols := a.cols
    data := fun x y => a.data (s2.toNat + x) y }

/-- Modelled from numpy documentation: np.ones_like, an all-ones stack of
the same shape. -/
def np_ones_like (a : Arr3) : Arr3 :=
  { rows := a.rows, cols := a.cols, depth := a.depth, data := fun _ _ _ => 1 }

/-- Row-axis lookup into a concatenated list of 2-D chunks. -/
def concatData : List Arr2 → ℕ → ℕ → ℚ
  | [], _, _ => 0
  | p :: ps, r, c => if r < p.rows then p.data r c else concatData ps (r - p.rows) c

/-- Modelled from numpy documentation: np.concatenate along the row axis
(the source stitches the trimmed chunk results back together with it). -/
def np_concatenate (ps : List Arr2) : Arr2 :=
  { rows := (ps.map Arr2.rows).sum
    cols := ((ps.head?).map Arr2.cols).getD 0
    data := fun r c => concatData ps r c }

/-- A Python value reaching the feather argument of the numba stencil:
either a loaded numpy stack or the raw list of raster paths.  The source is
dynamically typed; this sum type records which one flows in. -/
inductive NPValue where
  | arr (a : Arr3)
  | paths (p : List String)

/-- s1_collapse as invoked from Python: numba compiles the stencil against
the runtime types of the arguments, so a call whose feather_weights is a
list of raster paths (not an array indexable as f[x, y, z]) fails with a
typing error before any pixel is produced.  Modelled from the spec (§4.4:
the stencil takes an aligned FeatherStack) and numba's documented typed
compilation. -/
def s1_collapse_dyn (arr : Arr3) (offsets : List (ℤ × ℤ × ℤ)) (weights : List ℚ)
    (feather : NPValue) (quantile : ℚ) (nodata : Bool) (nodata_value : ℚ)
    (weighted : Bool) : Except String Arr2 :=
  match feather with
  | .arr f => .ok (s1_collapse arr offsets weights f quantile nodata nodata_value weighted)
  | .paths _ => .error "TypingError: feather_weights is not an array"

/-- kernel_size = 3 (line 153). -/
def kernel_size : ℕ := 3

/-- chunk_offset = kernel_size // 2 = 1, the halo radius (line 154). -/
def chunk_offset : ℕ := kernel_size / 2

/-- One iteration of the chunk loop (lines 182-230): halo-padded row
bounds, slice of stack and feather (all-ones when no feather is supplied),
collapse with nodata=True, weighted=True, quantile default 0.5, then the
halo trim.  Bounds follow the source exactly, including the Python
negative-index slice wrap when rows // chunks = 0. -/
def processChunk (arr : Arr3) (feather_arr : Option Arr3)
    (offsets : List (ℤ × ℤ × ℤ)) (weights : List ℚ) (nodata_value : ℚ)
    (chunks chunk : ℕ) : Arr2 :=
  let q : ℕ := arr.rows / chunks
  let chunk_start : ℤ :=
    if chunk = 0 then 0 else (chunk : ℤ) * (q : ℤ) - (chunk_offset : ℤ)
  let chunk_end : ℤ :=
    if chunk = chunks - 1 then (arr.rows : ℤ)
    else ((chunk : ℤ) + 1) * (q : ℤ) + (chunk_offset : ℤ)
  let arr_chunk := pySlice3 arr chunk_start chunk_end
  let weights_chunk := match feather_arr with
    | some f => pySlice3 f chunk_start chunk_end
    | none => np_ones_like arr_chunk
  let arr_collapsed := s1_collapse arr_chunk offsets weights weights_chunk
    (1/2) true nodata_value true
  let offset_start : ℤ := if chunk = 0 then 0 else (chunk_offset : ℤ)
  let offset_end : ℤ :=
    if chunk = chunks - 1 then (arr_collapsed.rows : ℤ)
    else (arr_collapsed.rows : ℤ) - (chunk_offset : ℤ)
  pySlice2 arr_collapsed offset_start offset_end

/-- ChunkedMosaicDriver: process_aligned (lines 144-288).  The kernel table
(create_kernel, an external collaborator whose module is not part of this
repository) enters as the offsets/weights parameters; raster loading is the
load parameter (raster_to_array); the staging np.save/np.load round trip
and the final masked write preserve the computed values, so the model
returns the stitched 2-D array.  The feather argument keeps its dynamic
type: the chunked path slices the loaded feather_weights_arr, while the
chunks == 1 path (lines 256-270) passes the raw feather_weights object
itself to the stencil. -/
def process_aligned (arr : Arr3) (feather_weights : Option (List String))
    (load : List String → Arr3) (offsets : List (ℤ × ℤ × ℤ)) (weights : List ℚ)
    (chunks : ℕ) (nodata_value : ℚ) : Except String Arr2 :=
  let feather_weights_arr : Option Arr3 := feather_weights.map load
  if chunks > 1 then
    .ok (np_concatenate ((List.range chunks).map
      (fun chunk => processChunk arr feather_weights_arr offsets weights nodata_value
        chunks chunk)))
  else
    let weights_borders : NPValue := match feather_weights with
      | some p => .paths p
      | none => .arr (np_ones_like arr)
    s1_collapse_dyn arr offsets weights weights_borders (1/2) true nodata_value true

/-- C6 (code bug): with chunks = 1 and a feather stack provided,
process_aligned hands the raw feather_weights raster-path object — not the
loaded feather_weights_arr — to the numba stencil, which rejects it; the
collapse with feather weights that the spec describes never runs. -/
theorem process_aligned_k1_feather_error (arr : Arr3) (p : List String)
    (load : List String → Arr3) (offsets : List (ℤ × ℤ × ℤ)) (weights : List ℚ)
    (nodata_value : ℚ) :
    process_aligned arr (some p) load offsets weights 1 nodata_value =
      .error "TypingError: feather_weights is not an array" := rfl

/-- C1 counterexample: a 2-row stack with chunk count 3 (so
rows // chunks = 0) loses every row: the stitched output has 0 rows, not
the stack's 2 — the shape invariant of the claim fails for chunk counts
above the row count. -/
theorem process_aligned_shape_counterexample :
    (process_aligned (Arr3.mk 2 1 1 (fun _ _ _ => 5)) none
        (fun _ => Arr3.mk 2 1 1 (fun _ _ _ => 5)) [(0, 0, 0)] [1] 3 (-9999)).toOption.map
      Arr2.rows = some 0 ∧
    (Arr3.mk 2 1 1 (fun _ _ _ => 5)).rows = 2 := by
  constructor
  · rfl
  · rfl

/-! ### Slice locality: the stencil on a halo-padded slice agrees with the
stencil on the full stack away from the halo -/

theorem clampI_of_in (v lo hi : ℤ) (h1 : lo ≤ v) (h2 : v ≤ hi) : clampI v lo hi = v := by
  unfold clampI
  rw [if_neg (by omega), if_neg (by omega)]

theorem pySlice3_rows_of (a : Arr3) (s e : ℕ) (hs : s ≤ a.rows) (he : e ≤ a.rows) :
    (pySlice3 a s e).rows = e - s := by
  show ((if (e:ℤ) < 0 then max 0 ((a.rows:ℤ) + e) else min (e:ℤ) a.rows) -
    (if (s:ℤ) < 0 then max 0 ((a.rows:ℤ) + s) else min (s:ℤ) a.rows)).toNat = e - s
  rw [if_neg (by omega), if_neg (by omega), min_eq_left (by omega), min_eq_left (by omega)]
  omega

theorem pySlice3_data_of (a : Arr3) (s e : ℕ) (hs : s ≤ a.rows) (x y z : ℤ) :
    (pySlice3 a s e).data x y z = a.data ((s:ℤ) + x) y z := by
  show a.data ((if (s:ℤ) < 0 then max 0 ((a.rows:ℤ) + s) else min (s:ℤ) a.rows) + x) y z = _
  rw [if_neg (by omega), min_eq_left (by omega)]

theorem pySlice2_rows_of (a : Arr2) (s e : ℕ) (hs : s ≤ a.rows) (he : e ≤ a.rows) :
    (pySlice2 a s e).rows = e - s := by
  show ((if (e:ℤ) < 0 then max 0 ((a.rows:ℤ) + e) else min (e:ℤ) a.rows) -
    (if (s:ℤ) < 0 then max 0 ((a.rows:ℤ) + s) else min (s:ℤ) a.rows)).toNat = e - s
  rw [if_neg (by omega), if_neg (by omega), min_eq_left (by omega), min_eq_left (by omega)]
  omega

theorem pySlice2_data_of (a : Arr2) (s e : ℕ) (hs : s ≤ a.rows) (x y : ℕ) :
    (pySlice2 a s e).data x y = a.data (s + x) y := by
  show a.data ((if (s:ℤ) < 0 then max 0 ((a.rows:ℤ) + s) else min (s:ℤ) a.rows).toNat + x) y = _
  rw [if_neg (by omega), min_eq_left (by omega)]
  norm_num

/-- Exclusion agreement between a slice pixel and its full-stack pixel:
with the kernel's row offsets bounded by the halo radius 1, a candidate is
outside on the slice at local row lx iff it is outside on the full stack at
row s + lx, provided lx is not a halo row (1 ≤ lx or the slice starts at
row 0; lx + 1 < slice rows or the slice ends at the last row). -/
theorem candOutside_slice (arr : Arr3) (s e : ℕ) (hse : s ≤ e) (he : e ≤ arr.rows)
    (dx dy dz : ℤ) (hdx1 : -1 ≤ dx) (hdx2 : dx ≤ 1) (lx y : ℕ) (hlx : lx < e - s)
    (hlow : 1 ≤ lx ∨ s = 0) (hhigh : lx + 1 < e - s ∨ e = arr.rows) :
    (candOutside (pySlice3 arr s e) (dx, dy, dz) lx y ↔
      candOutside arr (dx, dy, dz) (s + lx) y) := by
  have hrows : (pySlice3 arr s e).rows = e - s :=
    pySlice3_rows_of arr s e (le_trans hse he) he
  simp only [candOutside, hrows]
  have hx : ((lx:ℤ) + dx < 0 ∨ (((e - s : ℕ)):ℤ) - 1 < (lx:ℤ) + dx) ↔
      (((s + lx : ℕ):ℤ) + dx < 0 ∨ ((arr.rows:ℤ)) - 1 < ((s + lx : ℕ):ℤ) + dx) := by
    omega
  exact or_congr Iff.rfl (or_congr hx Iff.rfl)

theorem pySlice3_cols (a : Arr3) (s e : ℤ) : (pySlice3 a s e).cols = a.cols := rfl

theorem pySlice3_depth (a : Arr3) (s e : ℤ) : (pySlice3 a s e).depth = a.depth := rfl

theorem candValue_slice (arr : Arr3) (s e : ℕ) (hse : s ≤ e) (he : e ≤ arr.rows)
    (dx dy dz : ℤ) (hdx1 : -1 ≤ dx) (hdx2 : dx ≤ 1) (lx y : ℕ) (hlx : lx < e - s)
    (hlow : 1 ≤ lx ∨ s = 0) (hhigh : lx + 1 < e - s ∨ e = arr.rows)
    (hno : ¬ candOutside arr (dx, dy, dz) (s + lx) y) :
    candValue (pySlice3 arr s e) (dx, dy, dz) lx y =
      candValue arr (dx, dy, dz) (s + lx) y := by
  have hfull : ¬ (((s + lx : ℕ):ℤ) + dx < 0 ∨ (arr.rows:ℤ) - 1 < ((s + lx : ℕ):ℤ) + dx) :=
    fun hc => hno (Or.inr (Or.inl hc))
  have hxin1 : (0:ℤ) ≤ (lx:ℤ) + dx := by omega
  have hxin2 : (lx:ℤ) + dx ≤ (((e - s : ℕ)):ℤ) - 1 := by omega
  have hfin1 : (0:ℤ) ≤ ((s + lx : ℕ):ℤ) + dx := by omega
  have hfin2 : ((s + lx : ℕ):ℤ) + dx ≤ (arr.rows:ℤ) - 1 := by omega
  simp only [candValue, pySlice3_cols, pySlice3_depth,
    pySlice3_rows_of arr s e (le_trans hse he) he]
  rw [pySlice3_data_of arr s e (le_trans hse he),
    clampI_of_in _ _ _ hxin1 hxin2, clampI_of_in _ _ _ hfin1 hfin2]
  have harg : (s:ℤ) + ((lx:ℤ) + dx) = ((s + lx : ℕ):ℤ) + dx := by push_cast; ring
  rw [harg]

theorem candFeather_slice (arr : Arr3) (fslice ffull : Arr3) (s e : ℕ)
    (hse : s ≤ e) (he : e ≤ arr.rows)
    (hfd : ∀ x y z : ℤ, fslice.data x y z = ffull.data ((s:ℤ) + x) y z)
    (dx dy dz : ℤ) (hdx1 : -1 ≤ dx) (hdx2 : dx ≤ 1) (lx y : ℕ) (hlx : lx < e - s)
    (hlow : 1 ≤ lx ∨ s = 0) (hhigh : lx + 1 < e - s ∨ e = arr.rows)
    (hno : ¬ candOutside arr (dx, dy, dz) (s + lx) y) :
    candFeather (pySlice3 arr s e) fslice (dx, dy, dz) lx y =
      candFeather arr ffull (dx, dy, dz) (s + lx) y := by
  have hfull : ¬ (((s + lx : ℕ):ℤ) + dx < 0 ∨ (arr.rows:ℤ) - 1 < ((s + lx : ℕ):ℤ) + dx) :=
    fun hc => hno (Or.inr (Or.inl hc))
  have hxin1 : (0:ℤ) ≤ (lx:ℤ) + dx := by omega
  have hxin2 : (lx:ℤ) + dx ≤ (((e - s : ℕ)):ℤ) - 1 := by omega
  have hfin1 : (0:ℤ) ≤ ((s + lx : ℕ):ℤ) + dx := by omega
  have hfin2 : ((s + lx : ℕ):ℤ) + dx ≤ (arr.rows:ℤ) - 1 := by omega
  simp only [candFeather, pySlice3_cols, pySlice3_depth,
    pySlice3_rows_of arr s e (le_trans hse he) he]
  rw [hfd, clampI_of_in _ _ _ hxin1 hxin2, clampI_of_in _ _ _ hfin1 hfin2]
  have harg : (s:ℤ) + ((lx:ℤ) + dx) = ((s + lx : ℕ):ℤ) + dx := by push_cast; ring
  rw [harg]

theorem collapseStep_slice (arr fslice ffull : Arr3) (nodata : Bool) (nv : ℚ)
    (s e : ℕ) (hse : s ≤ e) (he : e ≤ arr.rows)
    (hfd : ∀ x y z : ℤ, fslice.data x y z = ffull.data ((s:ℤ) + x) y z)
    (lx y : ℕ) (hlx : lx < e - s)
    (hlow : 1 ≤ lx ∨ s = 0) (hhigh : lx + 1 < e - s ∨ e = arr.rows)
    (st : PixState) (cand : ℕ × ((ℤ × ℤ × ℤ) × ℚ))
    (hdx1 : -1 ≤ cand.2.1.1) (hdx2 : cand.2.1.1 ≤ 1) :
    collapseStep (pySlice3 arr s e) fslice nodata nv lx y st cand =
      collapseStep arr ffull nodata nv (s + lx) y st cand := by
  obtain ⟨n, ⟨dx, dy, dz⟩, wk⟩ := cand
  simp only at hdx1 hdx2
  have hout := candOutside_slice arr s e hse he dx dy dz hdx1 hdx2 lx y hlx hlow hhigh
  show (if candOutside (pySlice3 arr s e) (dx, dy, dz) lx y ∨
      (nodata = true ∧ candValue (pySlice3 arr s e) (dx, dy, dz) lx y = nv) then st
    else _) = (if candOutside arr (dx, dy, dz) (s + lx) y ∨
      (nodata = true ∧ candValue arr (dx, dy, dz) (s + lx) y = nv) then st else _)
  by_cases hno : candOutside arr (dx, dy, dz) (s + lx) y
  · rw [if_pos (Or.inl (hout.mpr hno)), if_pos (Or.inl hno)]
  · have hv := candValue_slice arr s e hse he dx dy dz hdx1 hdx2 lx y hlx hlow hhigh hno
    have hf := candFeather_slice arr fslice ffull s e hse he hfd dx dy dz hdx1 hdx2
      lx y hlx hlow hhigh hno
    have houts : ¬ candOutside (pySlice3 arr s e) (dx, dy, dz) lx y :=
      fun hc => hno (hout.mp hc)
    by_cases hnd : nodata = true ∧ candValue arr (dx, dy, dz) (s + lx) y = nv
    · rw [if_pos (Or.inr ⟨hnd.1, hv.trans hnd.2⟩), if_pos (Or.inr hnd)]
    · rw [if_neg ?_, if_neg ?_]
      · rw [hv, hf]
      · rintro (hc | hc)
        · exact hno hc
        · exact hnd hc
      · rintro (hc | hc)
        · exact houts hc
        · exact hnd ⟨hc.1, hv.symm.trans hc.2⟩

theorem foldl_congr_of_mem {α β : Type} (l : List β) (f g : α → β → α)
    (h : ∀ a c, c ∈ l → f a c = g a c) : ∀ a, l.foldl f a = l.foldl g a := by
  induction l with
  | nil => intro a; rfl
  | cons c t ih =>
    intro a
    rw [List.foldl_cons, List.foldl_cons, h a c (List.mem_cons_self _ _)]
    exact ih (fun a2 c2 hc2 => h a2 c2 (List.mem_cons_of_mem _ hc2)) _

theorem pixGather_slice (arr fslice ffull : Arr3) (offsets : List (ℤ × ℤ × ℤ))
    (weights : List ℚ) (nodata : Bool) (nv : ℚ) (s e : ℕ) (hse : s ≤ e) (he : e ≤ arr.rows)
    (hfd : ∀ x y z : ℤ, fslice.data x y z = ffull.data ((s:ℤ) + x) y z)
    (hoff : ∀ off ∈ offsets, -1 ≤ off.1 ∧ off.1 ≤ 1)
    (lx y : ℕ) (hlx : lx < e - s)
    (hlow : 1 ≤ lx ∨ s = 0) (hhigh : lx + 1 < e - s ∨ e = arr.rows) :
    pixGather (pySlice3 arr s e) fslice offsets weights nodata nv lx y =
      pixGather arr ffull offsets weights nodata nv (s + lx) y := by
  unfold pixGather
  apply foldl_congr_of_mem
  rintro st ⟨n, off, wk⟩ hc
  obtain ⟨hn, hcg⟩ := List.mem_enum hc
  have hn2 : n < offsets.length := by rw [List.length_zip] at hn; omega
  have hoffmem : off ∈ offsets := by
    have h2 : off = offsets[n] := by
      have h3 := congrArg Prod.fst hcg
      rw [List.getElem_zip] at h3
      exact h3
    rw [h2]
    exact List.getElem_mem _
  exact collapseStep_slice arr fslice ffull nodata nv s e hse he hfd lx y hlx hlow hhigh
    st ⟨n, off, wk⟩ (hoff off hoffmem).1 (hoff off hoffmem).2

theorem collapsePixel_slice (arr fslice ffull : Arr3) (offsets : List (ℤ × ℤ × ℤ))
    (weights : List ℚ) (quantile : ℚ) (nodata : Bool) (nv : ℚ) (weighted : Bool)
    (s e : ℕ) (hse : s ≤ e) (he : e ≤ arr.rows)
    (hfd : ∀ x y z : ℤ, fslice.data x y z = ffull.data ((s:ℤ) + x) y z)
    (hoff : ∀ off ∈ offsets, -1 ≤ off.1 ∧ off.1 ≤ 1)
    (lx y : ℕ) (hlx : lx < e - s)
    (hlow : 1 ≤ lx ∨ s = 0) (hhigh : lx + 1 < e - s ∨ e = arr.rows) :
    collapsePixel (pySlice3 arr s e) fslice offsets weights quantile nodata nv weighted lx y =
      collapsePixel arr ffull offsets weights quantile nodata nv weighted (s + lx) y := by
  have hpix := pixGather_slice arr fslice ffull offsets weights nodata nv s e hse he hfd
    hoff lx y hlx hlow hhigh
  unfold collapsePixel hoodResult
  rw [hpix]

theorem s1_collapse_rows (arr feather : Arr3) (offsets : List (ℤ × ℤ × ℤ))
    (weights : List ℚ) (quantile : ℚ) (nodata : Bool) (nv : ℚ) (weighted : Bool) :
    (s1_collapse arr offsets weights feather quantile nodata nv weighted).rows = arr.rows := rfl

theorem s1_collapse_cols (arr feather : Arr3) (offsets : List (ℤ × ℤ × ℤ))
    (weights : List ℚ) (quantile : ℚ) (nodata : Bool) (nv : ℚ) (weighted : Bool) :
    (s1_collapse arr offsets weights feather quantile nodata nv weighted).cols = arr.cols := rfl

/-- The slice-collapse output agrees with the full collapse at every column
index (in range it is the same per-pixel value; out of range both sides are
the untouched nodata initialisation). -/
theorem collapse_slice_data (arr fslice ffull : Arr3) (offsets : List (ℤ × ℤ × ℤ))
    (weights : List ℚ) (nv : ℚ)
    (hoff : ∀ off ∈ offsets, -1 ≤ off.1 ∧ off.1 ≤ 1)
    (s e : ℕ) (hse : s ≤ e) (he : e ≤ arr.rows)
    (hfd : ∀ x y z : ℤ, fslice.data x y z = ffull.data ((s:ℤ) + x) y z)
    (lx y : ℕ) (hlx : lx < e - s)
    (hlow : 1 ≤ lx ∨ s = 0) (hhigh : lx + 1 < e - s ∨ e = arr.rows) :
    (s1_collapse (pySlice3 arr s e) offsets weights fslice (1/2) true nv true).data lx y =
      (s1_collapse arr offsets weights ffull (1/2) true nv true).data (s + lx) y := by
  by_cases hy : y < arr.cols
  · rw [s1_collapse_data_eq (pySlice3 arr s e) fslice offsets weights (1/2) true nv true lx y
      (by rw [pySlice3_rows_of arr s e (le_trans hse he) he]; exact hlx)
      (by rw [pySlice3_cols]; exact hy),
      s1_collapse_data_eq arr ffull offsets weights (1/2) true nv true (s + lx) y
      (by omega) hy]
    exact collapsePixel_slice arr fslice ffull offsets weights (1/2) true nv true s e
      hse he hfd hoff lx y hlx hlow hhigh
  · rw [s1_collapse_data_out (pySlice3 arr s e) fslice offsets weights (1/2) true nv true lx y
      (by rw [pySlice3_cols]; exact fun hc => hy hc.2),
      s1_collapse_data_out arr ffull offsets weights (1/2) true nv true (s + lx) y
      (fun hc => hy hc.2)]

/-- Common shape of one trimmed chunk: slice rows [s, e), collapse, trim to
local rows [ts, te).  The trimmed result has te - ts rows and each of its
rows x holds the full-stack collapse at row s + ts + x. -/
theorem chunk_common (arr fslice ffull : Arr3) (offsets : List (ℤ × ℤ × ℤ))
    (weights : List ℚ) (nv : ℚ)
    (hoff : ∀ off ∈ offsets, -1 ≤ off.1 ∧ off.1 ≤ 1)
    (s e : ℕ) (hse : s ≤ e) (he : e ≤ arr.rows)
    (hfd : ∀ x y z : ℤ, fslice.data x y z = ffull.data ((s:ℤ) + x) y z)
    (ts te : ℕ) (hts : ts ≤ te) (hte : te ≤ e - s)
    (hlow : ∀ x, x < te - ts → (1 ≤ ts + x ∨ s = 0))
    (hhigh : ∀ x, x < te - ts → (ts + x + 1 < e - s ∨ e = arr.rows)) :
    (pySlice2 (s1_collapse (pySlice3 arr s e) offsets weights fslice (1/2) true nv true)
      ts te).rows = te - ts ∧
    ∀ x y, x < te - ts →
      (pySlice2 (s1_collapse (pySlice3 arr s e) offsets weights fslice (1/2) true nv true)
        ts te).data x y =
      (s1_collapse arr offsets weights ffull (1/2) true nv true).data (s + ts + x) y := by
  have hcr : (s1_collapse (pySlice3 arr s e) offsets weights fslice (1/2) true nv true).rows
      = e - s := by
    rw [s1_collapse_rows, pySlice3_rows_of arr s e (le_trans hse he) he]
  constructor
  · rw [pySlice2_rows_of _ ts te (by omega) (by omega)]
  · intro x y hx
    rw [pySlice2_data_of _ ts te (by omega) x y,
      collapse_slice_data arr fslice ffull offsets weights nv hoff s e hse he hfd
        (ts + x) y (by omega) (hlow x hx) (hhigh x hx)]
    have : s + (ts + x) = s + ts + x := by omega
    rw [this]

theorem chunk_offset_eq : chunk_offset = 1 := rfl

/-- The loaded feather stack (or the implicit all-ones stack) used by the
unchunked reference collapse. -/
def featherFull (arr : Arr3) (fa : Option Arr3) : Arr3 :=
  match fa with
  | some f => f
  | none => np_ones_like arr

/-- Basic chunk-grid facts for 2 ≤ k ≤ rows: q = rows / k satisfies
1 ≤ q, k * q ≤ rows and (k - 1) * q + 1 ≤ rows. -/
theorem chunk_grid_facts (rows k : ℕ) (hk : 2 ≤ k) (hkr : k ≤ rows) :
    1 ≤ rows / k ∧ k * (rows / k) ≤ rows ∧ (k - 1) * (rows / k) + (rows / k) = k * (rows / k) := by
  refine ⟨(Nat.one_le_div_iff (by omega)).mpr hkr, ?_, ?_⟩
  · have h1 := Nat.div_mul_le_self rows k
    rw [Nat.mul_comm]
    exact h1
  · have hk1 : k - 1 + 1 = k := by omega
    calc (k - 1) * (rows / k) + rows / k = ((k - 1) + 1) * (rows / k) := by ring
      _ = k * (rows / k) := by rw [hk1]

/-- The feather stack a chunk passes to the stencil: the slice of the
loaded feather array, or all-ones of the chunk's shape when no feather was
supplied (lines 204-207). -/
def featherSlice (arr : Arr3) (fa : Option Arr3) (s e : ℤ) : Arr3 :=
  match fa with
  | some f => pySlice3 f s e
  | none => np_ones_like (pySlice3 arr s e)

/-- Reshape one processChunk application into slice/trim normal form with
ℕ bounds, given the evaluated values of its four if-expressions. -/
theorem processChunk_eq_form (arr : Arr3) (fa : Option Arr3)
    (offsets : List (ℤ × ℤ × ℤ)) (weights : List ℚ) (nv : ℚ) (k i : ℕ)
    (S E TS TE : ℕ) (hSE : S ≤ E) (hE : E ≤ arr.rows)
    (hstart : (if i = 0 then (0:ℤ)
      else (i:ℤ) * ((arr.rows / k : ℕ):ℤ) - ((chunk_offset:ℕ):ℤ)) = ((S:ℕ):ℤ))
    (hend : (if i = k - 1 then ((arr.rows:ℕ):ℤ)
      else ((i:ℤ) + 1) * ((arr.rows / k : ℕ):ℤ) + ((chunk_offset:ℕ):ℤ)) = ((E:ℕ):ℤ))
    (hts : (if i = 0 then (0:ℤ) else ((chunk_offset:ℕ):ℤ)) = ((TS:ℕ):ℤ))
    (hte : (if i = k - 1 then (((E - S : ℕ)):ℤ)
      else (((E - S : ℕ)):ℤ) - ((chunk_offset:ℕ):ℤ)) = ((TE:ℕ):ℤ)) :
    processChunk arr fa offsets weights nv k i =
      pySlice2 (s1_collapse (pySlice3 arr ((S:ℕ):ℤ) ((E:ℕ):ℤ)) offsets weights
        (featherSlice arr fa ((S:ℕ):ℤ) ((E:ℕ):ℤ))
        (1/2) true nv true) ((TS:ℕ):ℤ) ((TE:ℕ):ℤ) := by
  simp only [processChunk, featherSlice]
  simp only [hstart, hend]
  simp only [s1_collapse_rows, pySlice3_rows_of arr S E (le_trans hSE hE) hE]
  simp only [hts, hte]

/-- The feather slice a chunk passes to the stencil reads the loaded
feather (or the implicit all-ones) stack shifted by the slice start. -/
theorem feather_slice_fd (arr : Arr3) (fa : Option Arr3) (S E : ℕ)
    (hfr : ∀ f, fa = some f → f.rows = arr.rows) (hS : S ≤ arr.rows) :
    ∀ x y z : ℤ,
      (featherSlice arr fa ((S:ℕ):ℤ) ((E:ℕ):ℤ)).data x y z
        = (featherFull arr fa).data (((S:ℕ):ℤ) + x) y z := by
  intro x y z
  cases fa with
  | none => rfl
  | some f =>
    show (pySlice3 f ((S:ℕ):ℤ) ((E:ℕ):ℤ)).data x y z = f.data _ y z
    rw [pySlice3_data_of f S E (by rw [hfr f rfl]; exact hS)]

theorem processChunk_zero_spec (arr : Arr3) (fa : Option Arr3)
    (offsets : List (ℤ × ℤ × ℤ)) (weights : List ℚ) (nv : ℚ)
    (hoff : ∀ off ∈ offsets, -1 ≤ off.1 ∧ off.1 ≤ 1)
    (k : ℕ) (hk : 2 ≤ k) (hkr : k ≤ arr.rows)
    (hfr : ∀ f, fa = some f → f.rows = arr.rows) :
    (processChunk arr fa offsets weights nv k 0).rows = arr.rows / k ∧
    ∀ x y, x < arr.rows / k →
      (processChunk arr fa offsets weights nv k 0).data x y =
        (s1_collapse arr offsets weights (featherFull arr fa) (1/2) true nv true).data x y := by
  obtain ⟨hq1, hkq, hsplit⟩ := chunk_grid_facts arr.rows k hk hkr
  have hq2 : 2 * (arr.rows / k) ≤ k * (arr.rows / k) := Nat.mul_le_mul_right _ hk
  have hE : arr.rows / k + 1 ≤ arr.rows := by omega
  have h0k : ¬ ((0:ℕ) = k - 1) := by omega
  have heq := processChunk_eq_form arr fa offsets weights nv k 0
    0 (arr.rows / k + 1) 0 (arr.rows / k) (by omega) hE
    (by rw [if_pos rfl]; norm_num)
    (by rw [if_neg h0k, chunk_offset_eq]; push_cast; ring)
    (by rw [if_pos rfl]; norm_num)
    (by rw [if_neg h0k, chunk_offset_eq]; omega)
  have hfd := feather_slice_fd arr fa 0 (arr.rows / k + 1) hfr (by omega)
  have hcc := chunk_common arr
    (featherSlice arr fa (((0:ℕ)):ℤ) ((arr.rows / k + 1 : ℕ):ℤ))
    (featherFull arr fa) offsets weights nv hoff 0 (arr.rows / k + 1) (by omega) hE hfd
    0 (arr.rows / k) (by omega) (by omega)
    (fun x _ => Or.inr rfl)
    (fun x hx => Or.inl (by omega))
  rw [heq]
  constructor
  · rw [hcc.1]
    omega
  · intro x y hx
    rw [hcc.2 x y (by omega)]
    norm_num

theorem processChunk_mid_spec (arr : Arr3) (fa : Option Arr3)
    (offsets : List (ℤ × ℤ × ℤ)) (weights : List ℚ) (nv : ℚ)
    (hoff : ∀ off ∈ offsets, -1 ≤ off.1 ∧ off.1 ≤ 1)
    (k i : ℕ) (hk : 2 ≤ k) (hkr : k ≤ arr.rows) (hi0 : 0 < i) (hik : i < k - 1)
    (hfr : ∀ f, fa = some f → f.rows = arr.rows) :
    (processChunk arr fa offsets weights nv k i).rows = arr.rows / k ∧
    ∀ x y, x < arr.rows / k →
      (processChunk arr fa offsets weights nv k i).data x y =
        (s1_collapse arr offsets weights (featherFull arr fa) (1/2) true nv true).data
          (i * (arr.rows / k) + x) y := by
  obtain ⟨hq1, hkq, hsplit⟩ := chunk_grid_facts arr.rows k hk hkr
  have hiq1 : 1 ≤ i * (arr.rows / k) := by
    have := Nat.mul_le_mul (show 1 ≤ i by omega) hq1
    omega
  have hmul1 : (i + 1) * (arr.rows / k) ≤ (k - 1) * (arr.rows / k) :=
    Nat.mul_le_mul_right _ (by omega)
  have hmul2 : (i + 1) * (arr.rows / k) = i * (arr.rows / k) + arr.rows / k := by ring
  have hE : (i + 1) * (arr.rows / k) + 1 ≤ arr.rows := by omega
  have hSE : i * (arr.rows / k) - 1 ≤ (i + 1) * (arr.rows / k) + 1 := by omega
  have hES : ((i + 1) * (arr.rows / k) + 1) - (i * (arr.rows / k) - 1)
      = arr.rows / k + 2 := by omega
  have hi0n : ¬ (i = 0) := by omega
  have hikn : ¬ (i = k - 1) := by omega
  have heq := processChunk_eq_form arr fa offsets weights nv k i
    (i * (arr.rows / k) - 1) ((i + 1) * (arr.rows / k) + 1) 1 (arr.rows / k + 1) hSE hE
    (by rw [if_neg hi0n, chunk_offset_eq]; push_cast [Nat.cast_sub hiq1]; ring)
    (by rw [if_neg hikn, chunk_offset_eq]; push_cast; ring)
    (by rw [if_neg hi0n, chunk_offset_eq])
    (by rw [if_neg hikn, chunk_offset_eq, hES]; omega)
  have hfd := feather_slice_fd arr fa (i * (arr.rows / k) - 1)
    ((i + 1) * (arr.rows / k) + 1) hfr (by omega)
  have hcc := chunk_common arr
    (featherSlice arr fa ((i * (arr.rows / k) - 1 : ℕ):ℤ)
      (((i + 1) * (arr.rows / k) + 1 : ℕ):ℤ))
    (featherFull arr fa) offsets weights nv hoff
    (i * (arr.rows / k) - 1) ((i + 1) * (arr.rows / k) + 1) hSE hE hfd
    1 (arr.rows / k + 1) (by omega) (by omega)
    (fun x _ => Or.inl (by omega))
    (fun x hx => Or.inl (by omega))
  rw [heq]
  constructor
  · rw [hcc.1]
    omega
  · intro x y hx
    rw [hcc.2 x y (by omega)]
    have hidx : i * (arr.rows / k) - 1 + 1 + x = i * (arr.rows / k) + x := by omega
    rw [hidx]

theorem processChunk_last_spec (arr : Arr3) (fa : Option Arr3)
    (offsets : List (ℤ × ℤ × ℤ)) (weights : List ℚ) (nv : ℚ)
    (hoff : ∀ off ∈ offsets, -1 ≤ off.1 ∧ off.1 ≤ 1)
    (k : ℕ) (hk : 2 ≤ k) (hkr : k ≤ arr.rows)
    (hfr : ∀ f, fa = some f → f.rows = arr.rows) :
    (processChunk arr fa offsets weights nv k (k - 1)).rows
      = arr.rows - (k - 1) * (arr.rows / k) ∧
    ∀ x y, x < arr.rows - (k - 1) * (arr.rows / k) →
      (processChunk arr fa offsets weights nv k (k - 1)).data x y =
        (s1_collapse arr offsets weights (featherFull arr fa) (1/2) true nv true).data
          ((k - 1) * (arr.rows / k) + x) y := by
  obtain ⟨hq1, hkq, hsplit⟩ := chunk_grid_facts arr.rows k hk hkr
  have hkq1 : 1 ≤ (k - 1) * (arr.rows / k) := by
    have := Nat.mul_le_mul (show 1 ≤ k - 1 by omega) hq1
    omega
  have hS : (k - 1) * (arr.rows / k) - 1 ≤ arr.rows := by omega
  have hSE : (k - 1) * (arr.rows / k) - 1 ≤ arr.rows := hS
  have hk0n : ¬ (k - 1 = 0) := by omega
  have heq := processChunk_eq_form arr fa offsets weights nv k (k - 1)
    ((k - 1) * (arr.rows / k) - 1) arr.rows 1
    (arr.rows - ((k - 1) * (arr.rows / k) - 1)) (by omega) (le_refl _)
    (by
      rw [if_neg hk0n, chunk_offset_eq]
      push_cast [Nat.cast_sub hkq1, Nat.cast_sub (show 1 ≤ k by omega)]
      ring)
    (by rw [if_pos rfl])
    (by rw [if_neg hk0n, chunk_offset_eq])
    (by rw [if_pos rfl])
  have hfd := feather_slice_fd arr fa ((k - 1) * (arr.rows / k) - 1) arr.rows hfr (by omega)
  have hcc := chunk_common arr
    (featherSlice arr fa (((k - 1) * (arr.rows / k) - 1 : ℕ):ℤ) ((arr.rows:ℕ):ℤ))
    (featherFull arr fa) offsets weights nv hoff
    ((k - 1) * (arr.rows / k) - 1) arr.rows (by omega) (le_refl _) hfd
    1 (arr.rows - ((k - 1) * (arr.rows / k) - 1)) (by omega) (by omega)
    (fun x _ => Or.inl (by omega))
    (fun x _ => Or.inr rfl)
  rw [heq]
  constructor
  · rw [hcc.1]
    omega
  · intro x y hx
    rw [hcc.2 x y (by omega)]
    have hidx : (k - 1) * (arr.rows / k) - 1 + 1 + x = (k - 1) * (arr.rows / k) + x := by
      omega
    rw [hidx]

/-- Coherence of a chunk list with a reference lookup F from base row b:
each piece's rows continue F where the previous piece stopped. -/
def Coherent (F : ℕ → ℕ → ℚ) : List Arr2 → ℕ → Prop
  | [], _ => True
  | p :: t, b => (∀ x y, x < p.rows → p.data x y = F (b + x) y) ∧ Coherent F t (b + p.rows)

theorem concat_coherent (F : ℕ → ℕ → ℚ) :
    ∀ (ps : List Arr2) (b : ℕ), Coherent F ps b →
      ∀ r y, r < (ps.map Arr2.rows).sum → concatData ps r y = F (b + r) y := by
  intro ps
  induction ps with
  | nil => intro b _ r y hr; simp at hr
  | cons p t ih =>
    intro b hco r y hr
    obtain ⟨hp, ht⟩ := hco
    show (if r < p.rows then p.data r y else concatData t (r - p.rows) y) = F (b + r) y
    by_cases h : r < p.rows
    · rw [if_pos h]
      exact hp r y h
    · rw [if_neg h]
      have hr2 : r - p.rows < (t.map Arr2.rows).sum := by
        simp only [List.map_cons, List.sum_cons] at hr
        omega
      rw [ih (b + p.rows) ht (r - p.rows) y hr2]
      have hb : b + p.rows + (r - p.rows) = b + r := by omega
      rw [hb]

theorem processChunk_cols (arr : Arr3) (fa : Option Arr3)
    (offsets : List (ℤ × ℤ × ℤ)) (weights : List ℚ) (nv : ℚ) (k i : ℕ) :
    (processChunk arr fa offsets weights nv k i).cols = arr.cols := rfl

/-- The suffix of the chunk list starting at chunk k - j is coherent with
the unchunked collapse from base row (k - j) * q, and its total row count
is rows - (k - j) * q. -/
theorem chunks_coherent (arr : Arr3) (fa : Option Arr3)
    (offsets : List (ℤ × ℤ × ℤ)) (weights : List ℚ) (nv : ℚ)
    (hoff : ∀ off ∈ offsets, -1 ≤ off.1 ∧ off.1 ≤ 1)
    (k : ℕ) (hk : 2 ≤ k) (hkr : k ≤ arr.rows)
    (hfr : ∀ f, fa = some f → f.rows = arr.rows) :
    ∀ j, 1 ≤ j → j ≤ k →
      Coherent (fun r y => (s1_collapse arr offsets weights (featherFull arr fa)
          (1/2) true nv true).data r y)
        ((List.range' (k - j) j).map
          (fun i => processChunk arr fa offsets weights nv k i))
        ((k - j) * (arr.rows / k)) ∧
      ((((List.range' (k - j) j).map
          (fun i => processChunk arr fa offsets weights nv k i)).map Arr2.rows).sum
        = arr.rows - (k - j) * (arr.rows / k)) := by
  obtain ⟨hq1, hkq, hsplit⟩ := chunk_grid_facts arr.rows k hk hkr
  intro j
  induction j with
  | zero => intro h1 _; omega
  | succ j ih =>
    intro _ hjk
    by_cases hj : j = 0
    · subst hj
      have hkk : k - 1 + 1 = k := by omega
      have hlast := processChunk_last_spec arr fa offsets weights nv hoff k hk hkr hfr
      simp only [zero_add, List.range'_one, List.map_cons, List.map_nil, Coherent,
        List.sum_cons, List.sum_nil]
      refine ⟨⟨?_, trivial⟩, ?_⟩
      · intro x y hx
        rw [hlast.1] at hx
        exact hlast.2 x y hx
      · rw [hlast.1]
        omega
    · have hk1 : k - (j + 1) + 1 = k - j := by omega
      have hrange : List.range' (k - (j + 1)) (j + 1) =
          (k - (j + 1)) :: List.range' (k - j) j := by
        rw [List.range'_succ, hk1]
      obtain ⟨ihc, ihs⟩ := ih (by omega) (by omega)
      have hstep : (k - (j + 1)) * (arr.rows / k) + arr.rows / k
          = (k - j) * (arr.rows / k) := by
        calc (k - (j + 1)) * (arr.rows / k) + arr.rows / k
            = ((k - (j + 1)) + 1) * (arr.rows / k) := by ring
          _ = (k - j) * (arr.rows / k) := by rw [hk1]
      have hkj : (k - j) * (arr.rows / k) ≤ k * (arr.rows / k) :=
        Nat.mul_le_mul_right _ (by omega)
      -- the head chunk: chunk 0 when j + 1 = k, an interior chunk otherwise
      have hhead : (processChunk arr fa offsets weights nv k (k - (j + 1))).rows
            = arr.rows / k ∧
          ∀ x y, x < arr.rows / k →
            (processChunk arr fa offsets weights nv k (k - (j + 1))).data x y =
              (s1_collapse arr offsets weights (featherFull arr fa)
                (1/2) true nv true).data ((k - (j + 1)) * (arr.rows / k) + x) y := by
        by_cases hjtop : j + 1 = k
        · have hzero := processChunk_zero_spec arr fa offsets weights nv hoff k hk hkr hfr
          have h0 : k - (j + 1) = 0 := by omega
          rw [h0]
          refine ⟨hzero.1, ?_⟩
          intro x y hx
          rw [hzero.2 x y hx]
          have : 0 * (arr.rows / k) + x = x := by omega
          rw [this]
        · have hmid := processChunk_mid_spec arr fa offsets weights nv hoff k
            (k - (j + 1)) hk hkr (by omega) (by omega) hfr
          exact hmid
      rw [hrange]
      simp only [List.map_cons, Coherent, List.sum_cons]
      refine ⟨⟨?_, ?_⟩, ?_⟩
      · intro x y hx
        rw [hhead.1] at hx
        exact hhead.2 x y hx
      · rw [hhead.1, hstep]
        exact ihc
      · rw [hhead.1, ihs]
        omega

/-- C1 (amended): with the halo radius fixed at the kernel radius 1 and the
kernel's row offsets within ±1, chunked execution is exact provided the
chunk count does not exceed the row count: for every stack and every
2 ≤ chunks ≤ rows, process_aligned succeeds, its output has the stack's
(rows, cols) shape, and every in-range pixel equals the single unchunked
collapse over the whole stack — which, when no feather stack is given, is
exactly what process_aligned computes with chunks = 1.  (As stated over all
chunk counts the claim is false: see process_aligned_shape_counterexample.) -/
theorem process_aligned_chunk_invariance
    (arr : Arr3) (feather_weights : Option (List String)) (load : List String → Arr3)
    (offsets : List (ℤ × ℤ × ℤ)) (weights : List ℚ) (chunks : ℕ) (nodata_value : ℚ)
    (hoff : ∀ off ∈ offsets, -1 ≤ off.1 ∧ off.1 ≤ 1)
    (hfr : ∀ p, feather_weights = some p → (load p).rows = arr.rows)
    (hk : 2 ≤ chunks) (hkr : chunks ≤ arr.rows) :
    ∃ out : Arr2,
      process_aligned arr feather_weights load offsets weights chunks nodata_value
        = .ok out ∧
      out.rows = arr.rows ∧ out.cols = arr.cols ∧
      (∀ x y, x < arr.rows → y < arr.cols →
        out.data x y = (s1_collapse arr offsets weights
          (featherFull arr (feather_weights.map load))
          (1/2) true nodata_value true).data x y) ∧
      (feather_weights = none →
        process_aligned arr none load offsets weights 1 nodata_value =
          .ok (s1_collapse arr offsets weights (featherFull arr none)
            (1/2) true nodata_value true)) := by
  have hfr2 : ∀ f, feather_weights.map load = some f → f.rows = arr.rows := by
    intro f hf
    obtain ⟨p, hp, hlp⟩ := Option.map_eq_some'.mp hf
    rw [← hlp]
    exact hfr p hp
  have hbranch : process_aligned arr feather_weights load offsets weights chunks
      nodata_value = .ok (np_concatenate ((List.range chunks).map
        (fun chunk => processChunk arr (feather_weights.map load) offsets weights
          nodata_value chunks chunk))) := by
    simp only [process_aligned, if_pos (by omega : chunks > 1)]
  obtain ⟨hcoh, hsum⟩ := chunks_coherent arr (feather_weights.map load) offsets weights
    nodata_value hoff chunks hk hkr hfr2 chunks (by omega) (le_refl _)
  have hkk : chunks - chunks = 0 := by omega
  rw [hkk, zero_mul] at hcoh hsum
  have hrange : List.range chunks = List.range' 0 chunks := List.range_eq_range' chunks
  refine ⟨_, hbranch, ?_, ?_, ?_, ?_⟩
  · -- rows
    show ((((List.range chunks).map _).map Arr2.rows)).sum = arr.rows
    rw [hrange, hsum]
    omega
  · -- cols
    show ((((List.range chunks).map (fun chunk => processChunk arr
      (feather_weights.map load) offsets weights nodata_value chunks chunk)).head?).map
      Arr2.cols).getD 0 = arr.cols
    obtain ⟨m, hm⟩ : ∃ m, chunks = m + 1 := ⟨chunks - 1, by omega⟩
    conv in List.range chunks => rw [hrange, hm, List.range'_succ]
    simp only [List.map_cons, List.head?_cons, Option.map_some', Option.getD_some,
      processChunk_cols]
  · -- data
    intro x y hx hy
    show concatData ((List.range chunks).map (fun chunk => processChunk arr
      (feather_weights.map load) offsets weights nodata_value chunks chunk)) x y = _
    rw [hrange]
    have hxb : x < ((((List.range' 0 chunks).map (fun chunk => processChunk arr
        (feather_weights.map load) offsets weights nodata_value chunks chunk)).map
        Arr2.rows)).sum := by
      rw [hsum]
      omega
    have := concat_coherent
      (fun r y => (s1_collapse arr offsets weights
        (featherFull arr (feather_weights.map load)) (1/2) true nodata_value true).data r y)
      ((List.range' 0 chunks).map (fun chunk => processChunk arr
        (feather_weights.map load) offsets weights nodata_value chunks chunk))
      0 hcoh x y hxb
    rw [this]
    norm_num
  · -- the unchunked path with no feather stack is exactly the reference collapse
    intro h
    subst h
    rfl

/-- Witness for the amended C1 at a concrete stack with chunks = 2. -/
theorem process_aligned_chunk_invariance_witness :
    (∀ off ∈ ([(0, 0, 0)] : List (ℤ × ℤ × ℤ)), -1 ≤ off.1 ∧ off.1 ≤ 1) ∧
    (2:ℕ) ≤ 2 ∧ 2 ≤ (Arr3.mk 2 1 1 (fun _ _ _ => 5)).rows ∧
    (∃ out : Arr2,
      process_aligned (Arr3.mk 2 1 1 (fun _ _ _ => 5)) none
        (fun _ => Arr3.mk 2 1 1 (fun _ _ _ => 5)) [(0, 0, 0)] [1] 2 (-9999) = .ok out ∧
      out.rows = (Arr3.mk 2 1 1 (fun _ _ _ => 5)).rows ∧
      out.cols = (Arr3.mk 2 1 1 (fun _ _ _ => 5)).cols ∧
      (∀ x y, x < (Arr3.mk 2 1 1 (fun _ _ _ => 5)).rows →
        y < (Arr3.mk 2 1 1 (fun _ _ _ => 5)).cols →
        out.data x y = (s1_collapse (Arr3.mk 2 1 1 (fun _ _ _ => 5)) [(0, 0, 0)] [1]
          (featherFull (Arr3.mk 2 1 1 (fun _ _ _ => 5))
            ((none : Option (List String)).map (fun _ => Arr3.mk 2 1 1 (fun _ _ _ => 5))))
          (1/2) true (-9999) true).data x y) ∧
      ((none : Option (List String)) = none →
        process_aligned (Arr3.mk 2 1 1 (fun _ _ _ => 5)) none
          (fun _ => Arr3.mk 2 1 1 (fun _ _ _ => 5)) [(0, 0, 0)] [1] 1 (-9999) =
          .ok (s1_collapse (Arr3.mk 2 1 1 (fun _ _ _ => 5)) [(0, 0, 0)] [1]
            (featherFull (Arr3.mk 2 1 1 (fun _ _ _ => 5)) none)
            (1/2) true (-9999) true))) :=
  ⟨by intro off hoff; simp only [List.mem_singleton] at hoff; subst hoff; norm_num,
    by norm_num, by norm_num,
    process_aligned_chunk_invariance (Arr3.mk 2 1 1 (fun _ _ _ => 5)) none
      (fun _ => Arr3.mk 2 1 1 (fun _ _ _ => 5)) [(0, 0, 0)] [1] 2 (-9999)
      (by intro off hoff; simp only [List.mem_singleton] at hoff; subst hoff; norm_num)
      (by intro p hp; cases hp)
      (by norm_num) (by norm_num)⟩

/-! ### TemporalOrderingStrategy: sort_rasters (s1_mosaic.py lines 32-53) -/

/-- Every other element of a list, starting with the first (the elements a
placement pass drops on one side). -/
def everyOther {α : Type} : List α → List α
  | [] => []
  | [a] => [a]
  | a :: _ :: rest => a :: everyOther rest

/-- The placement loop of sort_rasters (lines 38-51): walk the remaining
date-sorted rasters, alternately writing at mid - add (left, then switch)
and mid + add (right, then bump add and switch back). -/
def place {α : Type} : List (Option α) → ℕ → ℕ → Bool → List α → List (Option α)
  | copy, _, _, _, [] => copy
  | copy, mid, add, true, r :: rest =>
      place (copy.set (mid - add) (some r)) mid add false rest
  | copy, mid, add, false, r :: rest =>
      place (copy.set (mid + add) (some r)) mid (add + 1) true rest

/-- TemporalOrderingStrategy: sort_rasters (lines 32-53).  The date key
name_to_date (which parses the acquisition timestamp from the file name,
via os.path and datetime) is abstracted as the parameter date; Python's
stable sorted() is insertionSort.  The placeholder integers of
copy = list(range(len(rasters))) are modelled as none entries — every one
is overwritten when the input is non-empty.  (The source raises IndexError
on an empty input; the model returns [].) -/
def sort_rasters {α : Type} (date : α → ℤ) (rasters : List α) : List (Option α) :=
  let by_date := List.insertionSort (fun a b => date a ≤ date b) rasters
  let midpoint := rasters.length / 2
  match by_date with
  | [] => []
  | d0 :: rest =>
      place ((List.replicate rasters.length (none : Option α)).set midpoint (some d0))
        midpoint 1 true rest

/-- Descending block write: set position p, then p - 1, ... -/
def setsDesc {α : Type} : List (Option α) → ℕ → List α → List (Option α)
  | c, _, [] => c
  | c, p, v :: vs => setsDesc (c.set p (some v)) (p - 1) vs

/-- Ascending block write: set position p, then p + 1, ... -/
def setsAsc {α : Type} : List (Option α) → ℕ → List α → List (Option α)
  | c, _, [] => c
  | c, p, v :: vs => setsAsc (c.set p (some v)) (p + 1) vs

/-- The final layout sort_rasters produces from the date-sorted list:
odd-indexed entries reversed, then the earliest, then the even-indexed
entries from position 2 on. -/
def arrangement {α : Type} : List α → List α
  | [] => []
  | d0 :: rest => (everyOther rest).reverse ++ d0 :: everyOther rest.tail

theorem setsDesc_set_high {α : Type} : ∀ (vs : List α) (c : List (Option α)) (p j : ℕ)
    (v : Option α), p < j → setsDesc (c.set j v) p vs = (setsDesc c p vs).set j v
  | [], c, p, j, v, h => rfl
  | w :: ws, c, p, j, v, h => by
      show setsDesc ((c.set j v).set p (some w)) (p - 1) ws
        = (setsDesc (c.set p (some w)) (p - 1) ws).set j v
      rw [List.set_comm v (some w) c (by omega : j ≠ p)]
      exact setsDesc_set_high ws (c.set p (some w)) (p - 1) j v (by omega)

theorem everyOther_cons {α : Type} (a : α) (l : List α) :
    everyOther (a :: l) = a :: everyOther l.tail := by
  cases l with
  | nil => rfl
  | cons b t => rfl

theorem place_eq {α : Type} : ∀ (rs : List α) (copy : List (Option α)) (mid a : ℕ),
    1 ≤ a → place copy mid a true rs =
      setsAsc (setsDesc copy (mid - a) (everyOther rs)) (mid + a) (everyOther rs.tail)
  | [], copy, mid, a, _ => rfl
  | [r], copy, mid, a, _ => rfl
  | r1 :: r2 :: rest, copy, mid, a, ha => by
      have e1 : place copy mid a true (r1 :: r2 :: rest)
          = place ((copy.set (mid - a) (some r1)).set (mid + a) (some r2)) mid (a + 1)
            true rest := rfl
      have e2 : everyOther (r1 :: r2 :: rest) = r1 :: everyOther rest := rfl
      have e3 : everyOther ((r1 :: r2 :: rest).tail) = r2 :: everyOther rest.tail :=
        everyOther_cons r2 rest
      rw [e1, place_eq rest ((copy.set (mid - a) (some r1)).set (mid + a) (some r2))
        mid (a + 1) (by omega), e2, e3]
      show setsAsc (setsDesc ((copy.set (mid - a) (some r1)).set (mid + a) (some r2))
          (mid - (a + 1)) (everyOther rest)) (mid + (a + 1)) (everyOther rest.tail)
        = setsAsc ((setsDesc (copy.set (mid - a) (some r1)) (mid - a - 1)
            (everyOther rest)).set (mid + a) (some r2)) (mid + a + 1)
          (everyOther rest.tail)
      rw [setsDesc_set_high (everyOther rest) (copy.set (mid - a) (some r1))
        (mid - (a + 1)) (mid + a) (some r2) (by omega)]
      have h1 : mid - (a + 1) = mid - a - 1 := by omega
      have h2 : mid + (a + 1) = mid + a + 1 := by omega
      rw [h1, h2]

theorem take_set_self {α : Type} (c : List α) (p : ℕ) (x : α) :
    (c.set p x).take p = c.take p := by
  apply List.ext_getElem?
  intro i
  rw [List.getElem?_take, List.getElem?_take]
  by_cases h : i < p
  · rw [if_pos h, if_pos h, List.getElem?_set_ne (by omega)]
  · rw [if_neg h, if_neg h]

theorem drop_set_self {α : Type} (c : List α) (p : ℕ) (x : α) (h : p < c.length) :
    (c.set p x).drop p = x :: c.drop (p + 1) := by
  rw [List.drop_set, if_neg (by omega), List.drop_eq_getElem_cons h]
  have hp : p - p = 0 := by omega
  rw [hp, List.set_cons_zero]

theorem setsDesc_fill {α : Type} : ∀ (L : List α) (c : List (Option α)) (p : ℕ),
    p + 1 = L.length → p < c.length →
    setsDesc c p L = ((L.map some).reverse) ++ c.drop L.length
  | [], c, p, hp, _ => by simp at hp
  | [v], c, p, hp, hc => by
      have hp0 : p = 0 := by simp at hp; omega
      subst hp0
      show c.set 0 (some v) = [some v] ++ c.drop 1
      cases c with
      | nil => simp at hc
      | cons a t => simp
  | v :: w :: ws, c, p, hp, hc => by
      show setsDesc (c.set p (some v)) (p - 1) (w :: ws)
        = (((v :: w :: ws).map some).reverse) ++ c.drop (v :: w :: ws).length
      have hp1 : 1 ≤ p := by simp at hp; omega
      rw [setsDesc_fill (w :: ws) (c.set p (some v)) (p - 1)
        (by simp at hp ⊢; omega) (by rw [List.length_set]; omega)]
      have hdrop : (c.set p (some v)).drop (w :: ws).length = some v :: c.drop (p + 1) := by
        have hwl : (w :: ws).length = p := by simp at hp ⊢; omega
        rw [hwl, drop_set_self c p (some v) (by omega)]
      rw [hdrop]
      have hlen : (v :: w :: ws).length = p + 1 := by omega
      rw [hlen]
      simp

theorem setsAsc_fill {α : Type} : ∀ (L : List α) (c : List (Option α)) (p : ℕ),
    p + L.length = c.length →
    setsAsc c p L = c.take p ++ (L.map some)
  | [], c, p, hp => by
      simp only [List.length_nil] at hp
      show c = c.take p ++ []
      rw [List.append_nil, List.take_of_length_le (by omega)]
  | v :: vs, c, p, hp => by
      show setsAsc (c.set p (some v)) (p + 1) vs = c.take p ++ ((v :: vs).map some)
      rw [setsAsc_fill vs (c.set p (some v)) (p + 1)
        (by rw [List.length_set]; simp only [List.length_cons] at hp; omega)]
      have htake : (c.set p (some v)).take (p + 1) = c.take p ++ [some v] := by
        rw [List.take_succ, take_set_self,
          List.getElem?_set_self (by simp only [List.length_cons] at hp; omega)]
        rfl
      rw [htake]
      simp [List.append_assoc]

theorem everyOther_length {α : Type} : ∀ (l : List α),
    (everyOther l).length = (l.length + 1) / 2
  | [] => by simp [everyOther]
  | [_] => by simp [everyOther]
  | a :: b :: t => by
      simp only [everyOther, List.length_cons]
      rw [everyOther_length t]
      omega

theorem everyOther_getElem? {α : Type} : ∀ (l : List α) (j : ℕ),
    (everyOther l)[j]? = l[2 * j]?
  | [], j => by simp [everyOther]
  | [a], 0 => by simp [everyOther]
  | [a], j + 1 => by
      simp only [everyOther]
      have h2 : 2 * (j + 1) = (2 * j) + 1 + 1 := by ring
      rw [h2, List.getElem?_cons_succ, List.getElem?_cons_succ]
      simp
  | a :: b :: t, 0 => by simp [everyOther]
  | a :: b :: t, j + 1 => by
      simp only [everyOther, List.getElem?_cons_succ]
      have h2 : 2 * (j + 1) = (2 * j) + 1 + 1 := by ring
      rw [h2, List.getElem?_cons_succ, List.getElem?_cons_succ]
      exact everyOther_getElem? t j

theorem everyOther_append_perm {α : Type} : ∀ (l : List α),
    List.Perm (everyOther l ++ everyOther l.tail) l
  | [] => List.Perm.refl _
  | [a] => by simp [everyOther]
  | a :: b :: t => by
      show List.Perm ((a :: everyOther t) ++ everyOther (b :: t)) (a :: b :: t)
      rw [everyOther_cons b t, List.cons_append]
      refine List.Perm.cons a ?_
      refine List.Perm.trans List.perm_middle ?_
      exact List.Perm.cons b (everyOther_append_perm t)

theorem arrangement_perm {α : Type} : ∀ (l : List α), List.Perm (arrangement l) l
  | [] => List.Perm.refl _
  | d0 :: rest => by
      show List.Perm ((everyOther rest).reverse ++ d0 :: everyOther rest.tail) (d0 :: rest)
      refine List.Perm.trans List.perm_middle ?_
      refine List.Perm.cons d0 ?_
      refine List.Perm.trans (List.Perm.append_right _ (List.reverse_perm _)) ?_
      exact everyOther_append_perm rest

/-- Structural description of sort_rasters: the output is exactly the
arrangement of the date-sorted list, each entry wrapped in some. -/
theorem sort_rasters_eq {α : Type} (date : α → ℤ) (rasters : List α)
    (h2 : 2 ≤ rasters.length) :
    sort_rasters date rasters =
      (arrangement (List.insertionSort (fun a b => date a ≤ date b) rasters)).map some := by
  have hlen : (List.insertionSort (fun a b => date a ≤ date b) rasters).length
      = rasters.length := List.length_insertionSort _ _
  obtain ⟨d0, rest, hbd⟩ : ∃ d0 rest,
      List.insertionSort (fun a b => date a ≤ date b) rasters = d0 :: rest := by
    cases h : List.insertionSort (fun a b => date a ≤ date b) rasters with
    | nil => rw [h] at hlen; simp at hlen; omega
    | cons d0 rest => exact ⟨d0, rest, rfl⟩
  have hrl : rest.length = rasters.length - 1 := by
    rw [hbd] at hlen
    simp only [List.length_cons] at hlen
    omega
  simp only [sort_rasters, hbd, arrangement]
  rw [place_eq rest _ (rasters.length / 2) 1 (le_refl 1)]
  have hmid1 : 1 ≤ rasters.length / 2 := by omega
  have hLlen : (everyOther rest).length = rasters.length / 2 := by
    rw [everyOther_length, hrl]
    omega
  have hclen : ((List.replicate rasters.length (none : Option α)).set
      (rasters.length / 2) (some d0)).length = rasters.length := by
    rw [List.length_set, List.length_replicate]
  rw [setsDesc_fill (everyOther rest) _ (rasters.length / 2 - 1)
    (by omega) (by omega)]
  have hdrop : ((List.replicate rasters.length (none : Option α)).set
      (rasters.length / 2) (some d0)).drop (everyOther rest).length
      = some d0 :: List.replicate (rasters.length - (rasters.length / 2 + 1)) none := by
    rw [hLlen, drop_set_self _ _ _ (by rw [List.length_replicate]; omega),
      List.drop_replicate]
  rw [hdrop]
  have hRlen : (everyOther rest.tail).length = (rasters.length - 1) / 2 := by
    rw [everyOther_length]
    have : rest.tail.length = rest.length - 1 := by
      cases rest <;> simp
    rw [this, hrl]
    omega
  rw [setsAsc_fill (everyOther rest.tail) _ (rasters.length / 2 + 1)
    (by
      rw [hRlen]
      simp only [List.length_append, List.length_cons, List.length_reverse,
        List.length_map, List.length_replicate, hLlen]
      omega)]
  have htake : (((everyOther rest).map some).reverse ++
      some d0 :: List.replicate (rasters.length - (rasters.length / 2 + 1)) none).take
      (rasters.length / 2 + 1)
      = ((everyOther rest).map some).reverse ++ [some d0] := by
    have hrevlen : (((everyOther rest).map some).reverse).length = rasters.length / 2 := by
      rw [List.length_reverse, List.length_map, hLlen]
    rw [show rasters.length / 2 + 1 = (((everyOther rest).map some).reverse).length + 1 by
      rw [hrevlen], List.take_append]
    rfl
  rw [htake]
  simp [List.map_append, List.map_reverse]

theorem tail_getElem? {α : Type} (l : List α) (i : ℕ) : l.tail[i]? = l[i + 1]? := by
  cases l with
  | nil => simp
  | cons a t => simp

/-- C5: For every list of at least 2 raster identifiers with pairwise
distinct timestamps, sort_rasters returns (some of) a permutation of the
input of the input's length that places the earliest-dated identifier at
index N / 2 and the remaining identifiers, walked in ascending date order,
alternately at mid-1, mid+1, mid-2, mid+2, ..., starting on the left; this
holds for even and odd N alike. -/
theorem sort_rasters_spec {α : Type} (date : α → ℤ) (rasters : List α)
    (h2 : 2 ≤ rasters.length)
    (hdist : rasters.Pairwise (fun a b => date a ≠ date b)) :
    ∃ p : List α,
      sort_rasters date rasters = p.map some ∧
      List.Perm p rasters ∧ p.length = rasters.length ∧
      p[rasters.length / 2]? =
        (List.insertionSort (fun a b => date a ≤ date b) rasters)[0]? ∧
      (∀ j, 2 * j + 1 < rasters.length →
        p[rasters.length / 2 - (j + 1)]? =
          (List.insertionSort (fun a b => date a ≤ date b) rasters)[2 * j + 1]?) ∧
      (∀ j, 2 * j + 2 < rasters.length →
        p[rasters.length / 2 + (j + 1)]? =
          (List.insertionSort (fun a b => date a ≤ date b) rasters)[2 * j + 2]?) := by
  have hperm : List.Perm (arrangement (List.insertionSort (fun a b => date a ≤ date b)
      rasters)) rasters :=
    List.Perm.trans (arrangement_perm _) (List.perm_insertionSort _ _)
  have hlen : (List.insertionSort (fun a b => date a ≤ date b) rasters).length
      = rasters.length := List.length_insertionSort _ _
  obtain ⟨d0, rest, hbd⟩ : ∃ d0 rest,
      List.insertionSort (fun a b => date a ≤ date b) rasters = d0 :: rest := by
    cases h : List.insertionSort (fun a b => date a ≤ date b) rasters with
    | nil => rw [h] at hlen; simp at hlen; omega
    | cons d0 rest => exact ⟨d0, rest, rfl⟩
  have hrl : rest.length = rasters.length - 1 := by
    rw [hbd] at hlen
    simp only [List.length_cons] at hlen
    omega
  have hmid1 : 1 ≤ rasters.length / 2 := by omega
  have hLlen : (everyOther rest).length = rasters.length / 2 := by
    rw [everyOther_length, hrl]
    omega
  have hrevlen : ((everyOther rest).reverse).length = rasters.length / 2 := by
    rw [List.length_reverse, hLlen]
  refine ⟨arrangement (List.insertionSort (fun a b => date a ≤ date b) rasters),
    sort_rasters_eq date rasters h2, hperm, hperm.length_eq, ?_, ?_, ?_⟩
  · -- midpoint holds the earliest identifier
    rw [hbd]
    show ((everyOther rest).reverse ++ d0 :: everyOther rest.tail)[rasters.length / 2]?
      = (d0 :: rest)[0]?
    rw [List.getElem?_append_right (by rw [hrevlen])]
    rw [hrevlen]
    simp
  · -- left arm: sorted index 2j+1 sits at mid - (j+1)
    intro j hj
    have hj1 : j + 1 ≤ rasters.length / 2 := by omega
    rw [hbd]
    show ((everyOther rest).reverse ++ d0 :: everyOther rest.tail)[rasters.length / 2
      - (j + 1)]? = (d0 :: rest)[2 * j + 1]?
    rw [List.getElem?_append, if_pos (by rw [hrevlen]; omega),
      List.getElem?_reverse (by rw [hLlen]; omega), hLlen]
    have hidx : rasters.length / 2 - 1 - (rasters.length / 2 - (j + 1)) = j := by omega
    rw [hidx, everyOther_getElem?]
    rw [show 2 * j + 1 = 2 * j + 1 from rfl, List.getElem?_cons_succ]
  · -- right arm: sorted index 2j+2 sits at mid + (j+1)
    intro j hj
    rw [hbd]
    show ((everyOther rest).reverse ++ d0 :: everyOther rest.tail)[rasters.length / 2
      + (j + 1)]? = (d0 :: rest)[2 * j + 2]?
    rw [List.getElem?_append_right (by rw [hrevlen]; omega), hrevlen]
    have hidx : rasters.length / 2 + (j + 1) - rasters.length / 2 = j + 1 := by omega
    rw [hidx, List.getElem?_cons_succ, everyOther_getElem?, tail_getElem?]
    rw [show 2 * j + 2 = (2 * j + 1) + 1 from rfl, List.getElem?_cons_succ]

/-- Witness for C5 on five distinct dates: the earliest lands at index 2,
the rest alternate left and right. -/
theorem sort_rasters_spec_witness :
    (2:ℕ) ≤ ([10, 20, 30, 40, 50] : List ℤ).length ∧
    List.Pairwise (fun a b : ℤ => a ≠ b) [10, 20, 30, 40, 50] ∧
    (∃ p : List ℤ,
      sort_rasters (fun a => a) [10, 20, 30, 40, 50] = p.map some ∧
      List.Perm p [10, 20, 30, 40, 50] ∧
      p.length = ([10, 20, 30, 40, 50] : List ℤ).length ∧
      p[([10, 20, 30, 40, 50] : List ℤ).length / 2]? =
        (List.insertionSort (fun a b : ℤ => a ≤ b) [10, 20, 30, 40, 50])[0]? ∧
      (∀ j, 2 * j + 1 < ([10, 20, 30, 40, 50] : List ℤ).length →
        p[([10, 20, 30, 40, 50] : List ℤ).length / 2 - (j + 1)]? =
          (List.insertionSort (fun a b : ℤ => a ≤ b) [10, 20, 30, 40, 50])[2 * j + 1]?) ∧
      (∀ j, 2 * j + 2 < ([10, 20, 30, 40, 50] : List ℤ).length →
        p[([10, 20, 30, 40, 50] : List ℤ).length / 2 + (j + 1)]? =
          (List.insertionSort (fun a b : ℤ => a ≤ b) [10, 20, 30, 40, 50])[2 * j + 2]?)) :=
  ⟨by norm_num, by decide,
    sort_rasters_spec (fun a => a) [10, 20, 30, 40, 50] (by norm_num) (by decide)⟩

/-! ### mosaic_s1 preconditions (s1_mosaic.py lines 291-306) -/

/-- The dynamically typed value reaching mosaic_s1's vv_or_vv_paths
parameter: a Python list of raster identifiers, or anything else. -/
inductive PyInput (α : Type) where
  | list (xs : List α)
  | nonlist

/-- mosaic_s1's precondition guard (lines 302-306), the first two
statements of the function: a non-list input or a list of fewer than 2
rasters raises before any clipping, reprojection, alignment or collapse
work starts.  The remainder of mosaic_s1 is I/O glue over external
collaborators (reproject_raster, clip_raster, align_rasters,
calc_proximity) and is modelled as plain success. -/
def mosaic_s1 {α : Type} (vv_or_vv_paths : PyInput α) : Except String Unit :=
  match vv_or_vv_paths with
  | .nonlist => .error "vv_or_vv_paths must be a list"
  | .list xs =>
      if xs.length < 2 then .error "vv_or_vv_paths must contain more than one file"
      else .ok ()

/-- C9: mosaic_s1 aborts with a fatal precondition error, before any
computation, exactly when its input is not a list or holds fewer than 2
identifiers; a list of at least 2 identifiers passes the guard. -/
theorem mosaic_s1_precondition {α : Type} (v : PyInput α) :
    (∃ e, mosaic_s1 v = .error e) ↔
      (v = .nonlist ∨ ∃ xs, v = .list xs ∧ xs.length < 2) := by
  cases v with
  | nonlist =>
    constructor
    · intro _
      exact Or.inl rfl
    · intro _
      exact ⟨"vv_or_vv_paths must be a list", rfl⟩
  | list xs =>
    show (∃ e, (if xs.length < 2 then Except.error
        "vv_or_vv_paths must contain more than one file" else Except.ok ()) = .error e) ↔ _
    by_cases h : xs.length < 2
    · rw [if_pos h]
      constructor
      · intro _
        exact Or.inr ⟨xs, rfl, h⟩
      · intro _
        exact ⟨"vv_or_vv_paths must contain more than one file", rfl⟩
    · rw [if_neg h]
      constructor
      · rintro ⟨e, he⟩
        cases he
      · rintro (hv | ⟨ys, hys, hlen⟩)
        · cases hv
        · injection hys with h2
          subst h2
          exact absurd hlen h
